import Mathlib

/-!
Verification of the wordle solver core (feedback codec, feedback cache,
guess selection, decision-tree solve loops) against its specification.

Words are 5-letter lowercase strings bit-packed into an unsigned integer,
5 bits per letter ('a' = 1 .. 'z' = 26), most significant field first.
We embed the C++ sources shallowly: machine integers become `Nat` (with
explicit `% 2 ^ 64` where C converts to `uint64_t`), the letter-count
arrays become total functions `Nat → Nat`, files become `Option (List Nat)`
(absent, or the byte contents), and the fixed `for (int i = 0; i < 5; ++i)`
loops become folds over the five extracted letter codes.
-/

/-- Extracts the 5-bit letter code (1-26 for valid words) at position
`pos ∈ [0,4]`; embeds `get_char_code_at` of `words_data.h`
(`(word >> (5 * (4 - pos))) & 0x1F`). -/
def get_char_code_at (word : Nat) (pos : Nat) : Nat :=
  (word >>> (5 * (4 - pos))) &&& 31

/-- The five letter codes of a packed word, in position order: the
`guess_codes` / `answer_codes` arrays of `calculate_feedback_encoded`. -/
def codesOf (word : Nat) : List Nat :=
  [get_char_code_at word 0, get_char_code_at word 1, get_char_code_at word 2,
   get_char_code_at word 3, get_char_code_at word 4]

/-- `counts[x]++` on a letter-count array represented as a function. -/
def bumpCount (m : Nat → Nat) (x : Nat) : Nat → Nat :=
  fun c => if c = x then m c + 1 else m c

/-- `counts[x]--` on a letter-count array represented as a function.
In every state the code reaches, the decremented cell is positive, so
truncated `Nat` subtraction coincides with the C `uint8_t` decrement. -/
def decCount (m : Nat → Nat) (x : Nat) : Nat → Nat :=
  fun c => if c = x then m c - 1 else m c

/-- One step of pass 1 of the feedback computation: on a green position
(`guess code = answer code`) record code 2 and consume one occurrence of
that letter from the answer counts, otherwise record 0. -/
def pass1Step (st : (Nat → Nat) × List Nat) (p : Nat × Nat) :
    (Nat → Nat) × List Nat :=
  if p.1 = p.2 then (decCount st.1 p.1, st.2 ++ [2]) else (st.1, st.2 ++ [0])

/-- One step of pass 2: a still-gray position whose letter has an
unconsumed occurrence left in the answer becomes code 1, consuming it. -/
def pass2Step (st : (Nat → Nat) × List Nat) (p : Nat × Nat) :
    (Nat → Nat) × List Nat :=
  if p.2 = 0 ∧ st.1 p.1 > 0 then (decCount st.1 p.1, st.2 ++ [1])
  else (st.1, st.2 ++ [p.2])

/-- Folds the five position codes into one base-3 integer, most
significant first: the final loop of `calculate_feedback_encoded`. -/
def feedbackDigest (ds : List Nat) : Nat :=
  ds.foldl (fun acc d => acc * 3 + d) 0

/-- Embeds `calculate_feedback_encoded` of `solver_core.cpp` /
`solver.cpp`: builds the answer letter counts, runs the green pass then
the yellow pass, and folds the five position codes into a base-3 integer
most-significant first. -/
def calculate_feedback_encoded (guess_encoded answer_encoded : Nat) : Nat :=
  let guess_codes := codesOf guess_encoded
  let answer_codes := codesOf answer_encoded
  let answer_counts := answer_codes.foldl bumpCount (fun _ => 0)
  let pass1 := (guess_codes.zip answer_codes).foldl pass1Step (answer_counts, [])
  let pass2 := (guess_codes.zip pass1.2).foldl pass2Step (pass1.1, [])
  feedbackDigest pass2.2

/-- The indices with which `calculate_feedback_encoded` subscripts its
27-entry `answer_counts` array: the answer codes (initial count loop) and
the guess codes (pass 1 and pass 2). -/
def feedback_count_indices (guess_encoded answer_encoded : Nat) : List Nat :=
  codesOf answer_encoded ++ codesOf guess_encoded

/-- A packed word is valid when it is the canonical encoding of a
5-letter lowercase word: all five 5-bit fields lie in [1,26] and no bits
are set above the five fields. -/
def validPacked (w : Nat) : Prop :=
  w < 2 ^ 25 ∧ ∀ i, i < 5 → 1 ≤ get_char_code_at w i ∧ get_char_code_at w i ≤ 26

instance : DecidablePred validPacked := fun w => by
  unfold validPacked; infer_instance

/-- Reference feedback function, stated from the spec's words
(§4.1 FeedbackCodec): pass 1 marks the exact-position matches correct and
removes those letters from the answer's remaining letter counts; pass 2
walks the remaining guess letters left to right, marking one present
while the answer still has an unconsumed instance of it; the result is
the base-3 digest of the five position codes, most significant first. -/
def reference_feedback (guess_encoded answer_encoded : Nat) : Nat :=
  let gc := codesOf guess_encoded
  let ac := codesOf answer_encoded
  let pairs := gc.zip ac
  let greens := pairs.map (fun p => if p.1 = p.2 then 2 else 0)
  let remaining : Nat → Nat := fun c =>
    ac.count c - pairs.countP (fun p => p.1 == p.2 && p.1 == c)
  let pass2 := (gc.zip greens).foldl pass2Step (remaining, [])
  match pass2.2 with
  | [d0, d1, d2, d3, d4] => 81 * d0 + 27 * d1 + 9 * d2 + 3 * d3 + d4
  | _ => 0

section FeedbackLemmas

theorem foldl_bumpCount_eq_count (l : List Nat) (m : Nat → Nat) (c : Nat) :
    (l.foldl bumpCount m) c = m c + l.count c := by
  induction l generalizing m with
  | nil => simp
  | cons x xs ih =>
      simp only [List.foldl_cons, ih, List.count_cons]
      by_cases h : c = x
      · subst h; simp [bumpCount]; omega
      · have h' : (x == c) = false := beq_eq_false_iff_ne.mpr (Ne.symm h)
        simp [bumpCount, h, h']

theorem pass1_fold_snd (ps : List (Nat × Nat)) (m : Nat → Nat)
    (acc : List Nat) :
    (ps.foldl pass1Step (m, acc)).2 =
      acc ++ ps.map (fun p => if p.1 = p.2 then 2 else 0) := by
  induction ps generalizing m acc with
  | nil => simp
  | cons p ps ih =>
      by_cases h : p.1 = p.2 <;> simp [pass1Step, h, ih]

theorem pass1_fold_fst (ps : List (Nat × Nat)) (m : Nat → Nat)
    (acc : List Nat) (c : Nat) :
    (ps.foldl pass1Step (m, acc)).1 c =
      m c - ps.countP (fun p => p.1 == p.2 && p.1 == c) := by
  induction ps generalizing m acc with
  | nil => simp
  | cons p ps ih =>
      by_cases h : p.1 = p.2
      · simp only [List.foldl_cons, pass1Step, if_pos h, List.countP_cons]
        have hb : (p.1 == p.2) = true := by simpa using h
        by_cases hc : p.1 = c
        · have hbc : (p.1 == c) = true := by simpa using hc
          subst hc
          simp [ih, decCount, hb, hbc, Nat.sub_sub, Nat.add_comm]
        · have hbc : ¬ ((p.1 == c) = true) := by simpa using hc
          have hc' : ¬ c = p.1 := fun hh => hc hh.symm
          simp [ih, decCount, hb, hbc, hc']
      · have hb : ¬ ((p.1 == p.2) = true) := by simpa using h
        simp [pass1Step, h, hb, ih]

theorem pass2_fold_len (ps : List (Nat × Nat)) (m : Nat → Nat)
    (acc : List Nat) :
    ((ps.foldl pass2Step (m, acc)).2).length = acc.length + ps.length := by
  induction ps generalizing m acc with
  | nil => simp
  | cons p ps ih =>
      by_cases h : p.2 = 0 ∧ m p.1 > 0 <;>
        simp [pass2Step, h, ih] <;> omega

/-- `calculate_feedback_encoded` agrees with the spec-side
`reference_feedback` on all inputs. -/
theorem calculate_feedback_eq_reference (g a : Nat) :
    calculate_feedback_encoded g a = reference_feedback g a := by
  unfold calculate_feedback_encoded reference_feedback
  simp only
  rw [pass1_fold_snd, List.nil_append]
  have hfst :
      ((((codesOf g).zip (codesOf a)).foldl pass1Step
          ((codesOf a).foldl bumpCount (fun _ => 0), [])).1) =
        fun c => (codesOf a).count c -
          ((codesOf g).zip (codesOf a)).countP (fun p => p.1 == p.2 && p.1 == c) := by
    funext c
    rw [pass1_fold_fst, foldl_bumpCount_eq_count]
    simp
  rw [hfst]
  have hlen :
      (((codesOf g).zip
          ((((codesOf g).zip (codesOf a)).map
            (fun p => if p.1 = p.2 then 2 else 0)))).foldl pass2Step
        (fun c => (codesOf a).count c -
          ((codesOf g).zip (codesOf a)).countP (fun p => p.1 == p.2 && p.1 == c),
         [])).2.length = 5 := by
    rw [pass2_fold_len]
    simp [codesOf]
  generalize hds :
      (((codesOf g).zip
          ((((codesOf g).zip (codesOf a)).map
            (fun p => if p.1 = p.2 then 2 else 0)))).foldl pass2Step
        (fun c => (codesOf a).count c -
          ((codesOf g).zip (codesOf a)).countP (fun p => p.1 == p.2 && p.1 == c),
         [])).2 = ds
  rw [hds] at hlen
  match ds, hlen with
  | [d0, d1, d2, d3, d4], _ =>
      simp [feedbackDigest]
      ring

theorem zip_self_eq_map {α : Type} (l : List α) :
    l.zip l = l.map (fun x => (x, x)) := by
  induction l with
  | nil => rfl
  | cons x xs ih => simp [ih]

theorem zip_map_right_eq_map {α β : Type} (l : List α) (f : α → β) :
    l.zip (l.map f) = l.map (fun x => (x, f x)) := by
  induction l with
  | nil => rfl
  | cons x xs ih => simp [ih]

theorem pass2_fold_snd_of_ne_zero (ps : List (Nat × Nat)) (m : Nat → Nat)
    (acc : List Nat) (h : ∀ p ∈ ps, p.2 ≠ 0) :
    (ps.foldl pass2Step (m, acc)).2 = acc ++ ps.map Prod.snd := by
  induction ps generalizing m acc with
  | nil => simp
  | cons p ps ih =>
      have hp : p.2 ≠ 0 := h p (List.mem_cons_self _ _)
      rw [List.foldl_cons, pass2Step, if_neg (by simp [hp])]
      rw [ih _ _ (fun q hq => h q (List.mem_cons_of_mem _ hq))]
      simp

/-- Guessing the answer itself yields all-green feedback. -/
theorem feedback_self (g : Nat) : calculate_feedback_encoded g g = 242 := by
  unfold calculate_feedback_encoded
  simp only
  rw [zip_self_eq_map, pass1_fold_snd, List.nil_append, List.map_map]
  have hconst : ((fun p : Nat × Nat => if p.1 = p.2 then 2 else 0) ∘
      (fun x : Nat => (x, x))) = fun _ => 2 := by
    funext x; simp
  rw [hconst, zip_map_right_eq_map,
    pass2_fold_snd_of_ne_zero _ _ _ (by
      intro p hp
      obtain ⟨x, _, rfl⟩ := List.mem_map.mp hp
      simp),
    List.nil_append, List.map_map]
  simp only [codesOf, List.map_cons, List.map_nil, Function.comp]
  rfl

/-- Every digit the two passes produce is at most 2. -/
theorem pass2_digits_le (ps : List (Nat × Nat)) (m : Nat → Nat)
    (acc : List Nat) (hacc : ∀ d ∈ acc, d ≤ 2) (hps : ∀ p ∈ ps, p.2 ≤ 2) :
    ∀ d ∈ (ps.foldl pass2Step (m, acc)).2, d ≤ 2 := by
  induction ps generalizing m acc with
  | nil => simpa using hacc
  | cons p ps ih =>
      simp only [List.foldl_cons]
      by_cases h : p.2 = 0 ∧ m p.1 > 0
      · rw [pass2Step, if_pos h]
        refine ih _ _ ?_ ?_
        · intro d hd
          rcases List.mem_append.mp hd with h1 | h1
          · exact hacc d h1
          · simp at h1; omega
        · intro q hq; exact hps q (List.mem_cons_of_mem _ hq)
      · rw [pass2Step, if_neg h]
        refine ih _ _ ?_ ?_
        · intro d hd
          rcases List.mem_append.mp hd with h1 | h1
          · exact hacc d h1
          · simp at h1; subst h1; exact hps p (List.mem_cons_self _ _)
        · intro q hq; exact hps q (List.mem_cons_of_mem _ hq)

theorem feedbackDigest_le (ds : List Nat) (h : ∀ d ∈ ds, d ≤ 2) :
    feedbackDigest ds ≤ 3 ^ ds.length - 1 := by
  unfold feedbackDigest
  suffices H : ∀ (l : List Nat) (acc : Nat), (∀ d ∈ l, d ≤ 2) →
      l.foldl (fun acc d => acc * 3 + d) acc ≤ (acc + 1) * 3 ^ l.length - 1 by
    simpa using H ds 0 h
  intro l
  induction l with
  | nil => intro acc _; simp
  | cons d l ih =>
      intro acc hl
      have hd : d ≤ 2 := hl d (List.mem_cons_self _ _)
      have h1 := ih (acc * 3 + d) (fun x hx => hl x (List.mem_cons_of_mem _ hx))
      refine le_trans h1 ?_
      have h2 : (acc * 3 + d + 1) * 3 ^ l.length ≤ (acc + 1) * 3 ^ (d :: l).length := by
        have : acc * 3 + d + 1 ≤ (acc + 1) * 3 := by omega
        calc (acc * 3 + d + 1) * 3 ^ l.length
            ≤ (acc + 1) * 3 * 3 ^ l.length := Nat.mul_le_mul_right _ this
          _ = (acc + 1) * 3 ^ (d :: l).length := by
              simp [List.length_cons, pow_succ]; ring
      omega

/-- The feedback value is always in the closed interval [0, 242]. -/
theorem calculate_feedback_le (g a : Nat) :
    calculate_feedback_encoded g a ≤ 242 := by
  unfold calculate_feedback_encoded
  simp only
  set L1 := ((codesOf g).zip (codesOf a)).foldl pass1Step
    ((codesOf a).foldl bumpCount (fun _ => 0), []) with hL1
  set Z := (codesOf g).zip L1.2 with hZ
  have hdig : ∀ d ∈ (Z.foldl pass2Step (L1.1, [])).2, d ≤ 2 := by
    refine pass2_digits_le _ _ _ (by simp) ?_
    intro p hp
    have h2 := (List.of_mem_zip (hZ ▸ hp)).2
    rw [hL1, pass1_fold_snd] at h2
    simp only [List.nil_append, List.mem_map] at h2
    obtain ⟨q, _, hq⟩ := h2
    split at hq <;> omega
  have hbound := feedbackDigest_le _ hdig
  have hzlen : Z.length ≤ 5 := by
    rw [hZ]
    have h5 : (codesOf g).length = 5 := by simp [codesOf]
    have := List.length_zip (codesOf g) L1.2
    omega
  have hle : (Z.foldl pass2Step (L1.1, [])).2.length ≤ 5 := by
    rw [pass2_fold_len]
    simpa using hzlen
  have h3 : (3 : Nat) ^ (Z.foldl pass2Step (L1.1, [])).2.length ≤ 3 ^ 5 :=
    Nat.pow_le_pow_right (by omega) hle
  omega
end FeedbackLemmas

theorem valid_codes_lt_27 (w : Nat) (hw : validPacked w) :
    ∀ c ∈ codesOf w, c < 27 := by
  intro c hc
  simp only [codesOf, List.mem_cons, List.not_mem_nil, or_false] at hc
  rcases hc with rfl | rfl | rfl | rfl | rfl
  · exact Nat.lt_of_le_of_lt (hw.2 0 (by omega)).2 (by omega)
  · exact Nat.lt_of_le_of_lt (hw.2 1 (by omega)).2 (by omega)
  · exact Nat.lt_of_le_of_lt (hw.2 2 (by omega)).2 (by omega)
  · exact Nat.lt_of_le_of_lt (hw.2 3 (by omega)).2 (by omega)
  · exact Nat.lt_of_le_of_lt (hw.2 4 (by omega)).2 (by omega)


/-- C1: for every pair of valid packed words, `calculate_feedback_encoded`
equals the reference two-pass Wordle feedback definition (pass 1 greens
with count consumption, pass 2 yellows while unconsumed instances remain,
base-3 digest most-significant first), and feedback of a word against
itself is the all-correct code 242. -/
theorem feedback_encoded_matches_reference_and_self (g a : Nat)
    (_hg : validPacked g) (_ha : validPacked a) :
    calculate_feedback_encoded g a = reference_feedback g a ∧
    calculate_feedback_encoded g g = 242 :=
  ⟨calculate_feedback_eq_reference g a, feedback_self g⟩

/-- Witness for C1 at guess "arose" (packed 1654373) and answer "rarer"
(packed 18925746), the spec's duplicate-letter example. -/
theorem feedback_encoded_matches_reference_and_self_witness :
    validPacked 1654373 ∧ validPacked 18925746 ∧
    (calculate_feedback_encoded 1654373 18925746 =
        reference_feedback 1654373 18925746 ∧
      calculate_feedback_encoded 1654373 1654373 = 242) :=
  ⟨by decide, by decide,
    feedback_encoded_matches_reference_and_self 1654373 18925746
      (by decide) (by decide)⟩

/-- C10: for valid packed words, the feedback computation only indexes
its 27-entry letter-count array with codes below 27, and its result lies
in [0, 242]. -/
theorem feedback_encoded_safe (g a : Nat)
    (hg : validPacked g) (ha : validPacked a) :
    (∀ c ∈ feedback_count_indices g a, c < 27) ∧
    0 ≤ calculate_feedback_encoded g a ∧
    calculate_feedback_encoded g a ≤ 242 := by
  refine ⟨?_, Nat.zero_le _, calculate_feedback_le g a⟩
  intro c hc
  rcases List.mem_append.mp hc with h | h
  · exact valid_codes_lt_27 a ha c h
  · exact valid_codes_lt_27 g hg c h

/-- Witness for C10 at guess "arose" and answer "rarer". -/
theorem feedback_encoded_safe_witness :
    validPacked 1654373 ∧ validPacked 18925746 ∧
    ((∀ c ∈ feedback_count_indices 1654373 18925746, c < 27) ∧
      0 ≤ calculate_feedback_encoded 1654373 18925746 ∧
      calculate_feedback_encoded 1654373 18925746 ≤ 242) :=
  ⟨by decide, by decide,
    feedback_encoded_safe 1654373 18925746 (by decide) (by decide)⟩

/-! ## Word encoding and decoding (`words_data.h` / `words_data.cpp`) -/

/-- The C expression `c - 'a' + 1` (an `int`) as converted to `uint64_t`
when it is OR-ed into the accumulator: two's-complement value modulo
2^64. -/
def charVal (c : Char) : Nat :=
  (((c.toNat : Int) - 97 + 1) % (2 ^ 64 : Int)).toNat

/-- Embeds `encode_word` of `words_data.h`: for each character of the
argument, `encoded <<= 5; encoded |= (c - 'a' + 1)`.  There is no length
or character validation anywhere in the function. -/
def encode_word (word : String) : Nat :=
  word.data.foldl (fun encoded c => ((encoded <<< 5) % 2 ^ 64) ||| charVal c) 0

/-- The fixed starting guess `kInitialGuess = encode_word("roate")`. -/
def kInitialGuess : Nat := encode_word ("roate")

/-- Embeds `decode_word` of `words_data.cpp`: the loop reads the five
5-bit fields from least significant to most significant
(`word[i] = (encoded & 0x1F) + 'a' - 1; encoded >>= 5`). -/
def decode_word (encoded : Nat) : String :=
  let e4 := encoded
  let e3 := e4 >>> 5
  let e2 := e3 >>> 5
  let e1 := e2 >>> 5
  let e0 := e1 >>> 5
  String.mk [Char.ofNat ((e0 &&& 31) + 96), Char.ofNat ((e1 &&& 31) + 96),
    Char.ofNat ((e2 &&& 31) + 96), Char.ofNat ((e3 &&& 31) + 96),
    Char.ofNat ((e4 &&& 31) + 96)]

section CodecLemmas

theorem land31_eq_mod (x : Nat) : x &&& 31 = x % 32 := by
  have h := Nat.and_pow_two_sub_one_eq_mod x 5
  norm_num at h
  exact h

theorem shiftLeft_or_small (x v : Nat) (h : v < 32) :
    (x <<< 5) ||| v = 32 * x + v := by
  apply Nat.eq_of_testBit_eq
  intro i
  rw [Nat.testBit_or, Nat.testBit_shiftLeft]
  have h2 : (32 : Nat) * x + v = 2 ^ 5 * x + v := by norm_num
  rw [h2, Nat.testBit_mul_pow_two_add x (by omega : v < 2 ^ 5) i]
  by_cases hi : i < 5
  · have hge : ¬ (i ≥ 5) := by omega
    simp [hi, hge]
  · have hge : i ≥ 5 := by omega
    have hv : v < 2 ^ i := by
      have h5 : (2 : Nat) ^ 5 ≤ 2 ^ i := Nat.pow_le_pow_right (by omega) hge
      omega
    simp [hi, hge, Nat.testBit_lt_two_pow hv]

theorem encStep_eq (acc v : Nat) (hacc : acc < 2 ^ 59) (hv : v < 32) :
    ((acc <<< 5) % 2 ^ 64) ||| v = 32 * acc + v := by
  have hlt : acc <<< 5 < 2 ^ 64 := by
    rw [Nat.shiftLeft_eq]
    have : acc * 2 ^ 5 < 2 ^ 59 * 2 ^ 5 :=
      (Nat.mul_lt_mul_right (by norm_num)).mpr hacc
    omega
  rw [Nat.mod_eq_of_lt hlt, shiftLeft_or_small _ _ hv]

theorem charVal_lower (c : Char) (h1 : 97 ≤ c.toNat) (h2 : c.toNat ≤ 122) :
    charVal c = c.toNat - 96 := by
  unfold charVal
  have heq : ((c.toNat : Int) - 97 + 1) = ((c.toNat - 96 : Nat) : Int) := by
    omega
  rw [heq]
  rw [Int.emod_eq_of_lt (by positivity) (by omega)]
  omega

theorem encode_word_five (c0 c1 c2 c3 c4 : Char)
    (h0 : 97 ≤ c0.toNat ∧ c0.toNat ≤ 122) (h1 : 97 ≤ c1.toNat ∧ c1.toNat ≤ 122)
    (h2 : 97 ≤ c2.toNat ∧ c2.toNat ≤ 122) (h3 : 97 ≤ c3.toNat ∧ c3.toNat ≤ 122)
    (h4 : 97 ≤ c4.toNat ∧ c4.toNat ≤ 122) :
    encode_word (String.mk [c0, c1, c2, c3, c4]) =
      32 * (32 * (32 * (32 * (c0.toNat - 96) + (c1.toNat - 96)) +
        (c2.toNat - 96)) + (c3.toNat - 96)) + (c4.toNat - 96) := by
  unfold encode_word
  simp only [List.foldl_cons, List.foldl_nil]
  rw [charVal_lower c0 h0.1 h0.2, charVal_lower c1 h1.1 h1.2,
    charVal_lower c2 h2.1 h2.2, charVal_lower c3 h3.1 h3.2,
    charVal_lower c4 h4.1 h4.2]
  rw [encStep_eq 0 (c0.toNat - 96) (by omega) (by omega)]
  rw [encStep_eq (32 * 0 + (c0.toNat - 96)) (c1.toNat - 96)
    (by omega) (by omega)]
  rw [encStep_eq (32 * (32 * 0 + (c0.toNat - 96)) + (c1.toNat - 96))
    (c2.toNat - 96) (by omega) (by omega)]
  rw [encStep_eq (32 * (32 * (32 * 0 + (c0.toNat - 96)) + (c1.toNat - 96)) +
    (c2.toNat - 96)) (c3.toNat - 96) (by omega) (by omega)]
  rw [encStep_eq (32 * (32 * (32 * (32 * 0 + (c0.toNat - 96)) +
    (c1.toNat - 96)) + (c2.toNat - 96)) + (c3.toNat - 96)) (c4.toNat - 96)
    (by omega) (by omega)]
  omega

end CodecLemmas

section CodecRoundTrip

theorem exists_five_chars (l : List Char) (h : l.length = 5) :
    ∃ a b c d e, l = [a, b, c, d, e] := by
  match l, h with
  | [a, b, c, d, e], _ => exact ⟨a, b, c, d, e, rfl⟩

theorem decode_encode_five (c0 c1 c2 c3 c4 : Char)
    (h0 : 97 ≤ c0.toNat ∧ c0.toNat ≤ 122) (h1 : 97 ≤ c1.toNat ∧ c1.toNat ≤ 122)
    (h2 : 97 ≤ c2.toNat ∧ c2.toNat ≤ 122) (h3 : 97 ≤ c3.toNat ∧ c3.toNat ≤ 122)
    (h4 : 97 ≤ c4.toNat ∧ c4.toNat ≤ 122) :
    decode_word (encode_word (String.mk [c0, c1, c2, c3, c4])) =
      String.mk [c0, c1, c2, c3, c4] := by
  rw [encode_word_five c0 c1 c2 c3 c4 h0 h1 h2 h3 h4]
  unfold decode_word
  simp only [Nat.shiftRight_eq_div_pow, land31_eq_mod]
  norm_num
  have e4 :
      (32 * (32 * (32 * (32 * (c0.toNat - 96) + (c1.toNat - 96)) +
        (c2.toNat - 96)) + (c3.toNat - 96)) + (c4.toNat - 96)) % 32 + 96 =
        c4.toNat := by omega
  have e3 :
      (32 * (32 * (32 * (32 * (c0.toNat - 96) + (c1.toNat - 96)) +
        (c2.toNat - 96)) + (c3.toNat - 96)) + (c4.toNat - 96)) / 32 % 32 + 96 =
        c3.toNat := by omega
  have e2 :
      (32 * (32 * (32 * (32 * (c0.toNat - 96) + (c1.toNat - 96)) +
        (c2.toNat - 96)) + (c3.toNat - 96)) + (c4.toNat - 96)) / 32 / 32 % 32 +
        96 = c2.toNat := by omega
  have e1 :
      (32 * (32 * (32 * (32 * (c0.toNat - 96) + (c1.toNat - 96)) +
        (c2.toNat - 96)) + (c3.toNat - 96)) + (c4.toNat - 96)) / 32 / 32 / 32 %
        32 + 96 = c1.toNat := by omega
  have e0 :
      (32 * (32 * (32 * (32 * (c0.toNat - 96) + (c1.toNat - 96)) +
        (c2.toNat - 96)) + (c3.toNat - 96)) + (c4.toNat - 96)) / 32 / 32 / 32 /
        32 % 32 + 96 = c0.toNat := by omega
  rw [e0, e1, e2, e3, e4]
  simp [Char.ofNat_toNat]

/-- C9: decoding the encoding of any 5-character lowercase word returns
the word unchanged. -/
theorem decode_word_encode_word (s : String) (hlen : s.length = 5)
    (hchars : ∀ c ∈ s.data, 97 ≤ c.toNat ∧ c.toNat ≤ 122) :
    decode_word (encode_word s) = s := by
  obtain ⟨l⟩ := s
  have hl : l.length = 5 := hlen
  obtain ⟨c0, c1, c2, c3, c4, rfl⟩ := exists_five_chars l hl
  exact decode_encode_five c0 c1 c2 c3 c4
    (hchars c0 (by simp)) (hchars c1 (by simp)) (hchars c2 (by simp))
    (hchars c3 (by simp)) (hchars c4 (by simp))

/-- Witness for C9 on the word "hello". -/
theorem decode_word_encode_word_witness :
    decode_word (encode_word ("hello")) = "hello" :=
  decode_word_encode_word ("hello") (by decide) (by decide)

end CodecRoundTrip

section EncodeValidation

/-- C8 amended: `encode_word` performs no validation and has no failure
path; instead, encoding a 5-character lowercase word always yields a
valid packed word, and rejection of malformed words is left to callers
(the file loader skips non-5-character lines, the CLI checks vocabulary
membership after encoding). -/
theorem encode_word_valid_on_lowercase (s : String) (hlen : s.length = 5)
    (hchars : ∀ c ∈ s.data, 97 ≤ c.toNat ∧ c.toNat ≤ 122) :
    validPacked (encode_word s) := by
  obtain ⟨l⟩ := s
  have hl : l.length = 5 := hlen
  obtain ⟨c0, c1, c2, c3, c4, rfl⟩ := exists_five_chars l hl
  have h0 := hchars c0 (by simp)
  have h1 := hchars c1 (by simp)
  have h2 := hchars c2 (by simp)
  have h3 := hchars c3 (by simp)
  have h4 := hchars c4 (by simp)
  rw [encode_word_five c0 c1 c2 c3 c4 h0 h1 h2 h3 h4]
  constructor
  · norm_num
    omega
  · intro i hi
    interval_cases i <;>
      (unfold get_char_code_at
       simp only [Nat.shiftRight_eq_div_pow, land31_eq_mod]
       norm_num
       omega)

/-- Witness for C8 on the word "roate". -/
theorem encode_word_valid_on_lowercase_witness :
    validPacked (encode_word ("roate")) :=
  encode_word_valid_on_lowercase ("roate") (by decide) (by decide)

/-- Counterexample for C8 as stated: the 6-character input made of a
backquote followed by "aaaaa" is neither 5 characters long nor entirely
lowercase letters, yet `encode_word` does not fail on it: it returns the
very encoding of the valid word "aaaaa" (the backquote contributes the
letter code 0, which the shift-and-or loop absorbs), not a zero or
otherwise invalid sentinel. -/
theorem encode_word_rejects_nothing_counterexample :
    encode_word ("`aaaaa") = encode_word ("aaaaa") ∧
    encode_word ("`aaaaa") ≠ 0 ∧
    validPacked (encode_word ("`aaaaa")) ∧
    ("`aaaaa").length ≠ 5 ∧
    ¬ (∀ c ∈ ("`aaaaa").data, 97 ≤ c.toNat ∧ c.toNat ≤ 122) :=
  ⟨by decide, by decide, by decide, by decide, by decide⟩

end EncodeValidation

/-! ## Feedback cache (`feedback_cache.cpp`) -/

/-- Embeds `struct FeedbackTable`: either an owned byte buffer or a
memory-mapped read-only view (never both).  File bytes are `Nat`s. -/
structure FeedbackTable where
  guess_count : Nat := 0
  answer_count : Nat := 0
  owned_data : List Nat := []
  mapped_data : Option (List Nat) := none

/-- `FeedbackTable::loaded()`: a mapping is present or the owned buffer
is non-empty. -/
def FeedbackTable.loaded (t : FeedbackTable) : Bool :=
  t.mapped_data.isSome || !t.owned_data.isEmpty

/-- `FeedbackTable::data()`: the mapped view if present, else the owned
buffer. -/
def FeedbackTable.dataBytes (t : FeedbackTable) : List Nat :=
  match t.mapped_data with
  | some d => d
  | none => t.owned_data

/-- `row(guess_idx)[idx]`, i.e. `data()[guess_idx * answer_count + idx]`;
the raw-memory read becomes `getD _ 0`. -/
def FeedbackTable.cell (t : FeedbackTable) (guess_idx idx : Nat) : Nat :=
  t.dataBytes.getD (guess_idx * t.answer_count + idx) 0

/-- Embeds `load_feedback_table` (Unix branch): the file is `none` when
missing, otherwise its byte contents.  An exact-size file
(`st.st_size == word_count²`, nonzero, since `mmap` rejects length 0) is
mapped; otherwise the `ifstream` fallback reads the first `word_count²`
bytes into the owned buffer and fails — leaving the table unloaded — only
when the file is shorter than that.  (When `mmap` itself fails the C code
falls into the same fallback read; the resulting table is loaded with the
same bytes, so we model the mapping as succeeding.) -/
def load_feedback_table (file : Option (List Nat)) (word_count : Nat) :
    FeedbackTable :=
  match file with
  | none => {}
  | some bytes =>
      if bytes.length = word_count * word_count ∧ 0 < word_count * word_count then
        { guess_count := word_count, answer_count := word_count,
          owned_data := [], mapped_data := some bytes }
      else if word_count * word_count ≤ bytes.length then
        { guess_count := word_count, answer_count := word_count,
          owned_data := bytes.take (word_count * word_count),
          mapped_data := none }
      else {}

/-- Embeds `build_feedback_table_file`: the byte sequence written to the
file — for each guess in vocabulary order, one row of
`(uint8_t)calculate_feedback_encoded(guess, answer)` over all answers. -/
def build_feedback_table_file (words : List Nat) : List Nat :=
  (words.map (fun guess =>
    words.map (fun answer =>
      calculate_feedback_encoded guess answer % 256))).flatten

/-- C7 amended: the loaded/absent decision of `load_feedback_table`.  The
table is absent when the file is missing, when `word_count` is zero, or
when the file is shorter than `word_count²` bytes; it is loaded whenever
the file holds at least `word_count² > 0` bytes — an exact-size file is
memory-mapped and a larger file is accepted by the fallback read of its
first `word_count²` bytes. -/
theorem load_feedback_table_loaded_iff (file : Option (List Nat)) (N : Nat) :
    (load_feedback_table file N).loaded = true ↔
      ∃ bytes, file = some bytes ∧ N * N ≤ bytes.length ∧ 0 < N * N := by
  cases file with
  | none => simp [load_feedback_table, FeedbackTable.loaded]
  | some bytes =>
      simp only [load_feedback_table]
      split_ifs with h1 h2
      · constructor
        · intro _
          exact ⟨bytes, rfl, by omega, h1.2⟩
        · intro _
          rfl
      · have hiff :
            ({ guess_count := N, answer_count := N,
               owned_data := bytes.take (N * N),
               mapped_data := none } : FeedbackTable).loaded = true ↔
              bytes.take (N * N) ≠ [] := by
          simp [FeedbackTable.loaded]
        rw [hiff]
        constructor
        · intro hne
          refine ⟨bytes, rfl, h2, ?_⟩
          by_contra h0
          have hz : N * N = 0 := by omega
          simp [hz] at hne
        · rintro ⟨b, hb, hlen, hpos⟩
          injection hb with hb
          subst hb
          intro hemp
          have hlen0 : (bytes.take (N * N)).length = 0 := by rw [hemp]; rfl
          rw [List.length_take] at hlen0
          omega
      · constructor
        · intro hx
          simp [FeedbackTable.loaded] at hx
        · rintro ⟨b, hb, hlen, hpos⟩
          injection hb with hb
          subst hb
          omega

/-- Counterexample for C7 as stated: with vocabulary size 1, a 2-byte
file does not match `1² = 1` bytes, yet the fallback read accepts it and
the table loads. -/
theorem load_feedback_table_counterexample :
    (load_feedback_table (some [0, 0]) 1).loaded = true ∧
    (2 : Nat) ≠ 1 * 1 := by
  constructor
  · rfl
  · decide

/-! ## Candidate filtering (`solver_core.cpp`) -/

/-- Models `build_lookup_tables` plus `word_index.find`: the hash map is
built with `emplace`, which keeps the first index inserted for each key,
so a lookup yields the first position of the word in the vocabulary. -/
def word_index_find (lookups : List Nat) (w : Nat) : Option Nat :=
  lookups.findIdx? (fun x => x == w)

/-- Embeds `filter_candidate_indices`: with a loaded feedback table, look
the guess up in the word index (returning the empty list when absent) and
keep the candidate indices whose table cell equals the feedback;
otherwise keep the candidates whose directly computed feedback matches. -/
def filter_candidate_indices (indices : List Nat) (guess feedback : Nat)
    (feedback_table : Option FeedbackTable) (lookups words : List Nat) :
    List Nat :=
  match feedback_table with
  | some table =>
      if table.loaded then
        match word_index_find lookups guess with
        | none => []
        | some guess_idx =>
            indices.filter (fun idx => table.cell guess_idx idx == feedback)
      else
        indices.filter (fun idx =>
          calculate_feedback_encoded guess (words.getD idx 0) == feedback)
  | none =>
      indices.filter (fun idx =>
        calculate_feedback_encoded guess (words.getD idx 0) == feedback)

section FilterLemmas

theorem word_index_find_mem (l : List Nat) (w : Nat) (hw : w ∈ l) :
    ∃ j, word_index_find l w = some j ∧ j < l.length ∧ l.getD j 0 = w := by
  induction l with
  | nil => cases hw
  | cons x xs ih =>
      by_cases hx : x = w
      · refine ⟨0, ?_, by simp, by simp [hx]⟩
        unfold word_index_find
        rw [List.findIdx?_cons]
        simp [hx]
      · have hw' : w ∈ xs := by
          rcases List.mem_cons.mp hw with h | h
          · exact absurd h.symm hx
          · exact h
        obtain ⟨j, hfind, hl, hg⟩ := ih hw'
        refine ⟨j + 1, ?_, by simpa using hl, by simpa using hg⟩
        unfold word_index_find at hfind ⊢
        rw [List.findIdx?_cons]
        have : (x == w) = false := beq_eq_false_iff_ne.mpr hx
        simp [this, hfind]

theorem flatten_map_length {α β : Type} (l : List α) (f : α → List β)
    (n : Nat) (h : ∀ x ∈ l, (f x).length = n) :
    ((l.map f).flatten).length = l.length * n := by
  induction l with
  | nil => simp
  | cons x xs ih =>
      simp only [List.map_cons, List.flatten_cons, List.length_append,
        List.length_cons]
      rw [h x (List.mem_cons_self _ _), ih (fun y hy => h y (List.mem_cons_of_mem _ hy))]
      ring

theorem flatten_map_cell (outer inner : List Nat) (f : Nat → Nat → Nat)
    (j idx : Nat) (hj : j < outer.length) (hi : idx < inner.length) :
    ((outer.map (fun g => inner.map (f g))).flatten).getD
        (j * inner.length + idx) 0 =
      f (outer.getD j 0) (inner.getD idx 0) := by
  induction outer generalizing j with
  | nil => simp at hj
  | cons g gs ih =>
      cases j with
      | zero =>
          simp only [List.map_cons, List.flatten_cons, Nat.zero_mul,
            Nat.zero_add]
          rw [List.getD_append _ _ _ _ (by simpa using hi)]
          simp only [List.getD]
          rw [List.get?_map, List.get?_eq_get hi]
          simp
      | succ j =>
          simp only [List.map_cons, List.flatten_cons]
          have hlen : (inner.map (f g)).length = inner.length := by simp
          rw [List.getD_append_right _ _ _ _ (by
            rw [hlen]
            have : inner.length ≤ (j + 1) * inner.length := by
              have := Nat.le_mul_of_pos_left inner.length
                (show 0 < j + 1 by omega)
              omega
            omega)]
          rw [hlen]
          have harith : (j + 1) * inner.length + idx - inner.length =
              j * inner.length + idx := by
            have : (j + 1) * inner.length = j * inner.length + inner.length := by
              ring
            omega
          rw [harith]
          exact ih j (by simpa using hj)

end FilterLemmas

/-- C2 amended: for a guess that is in the vocabulary and candidate
indices within range, filtering against the table built from the same
vocabulary by `build_feedback_table_file` returns exactly what direct
computation returns.  (For a guess outside the vocabulary the table path
returns the empty list while the direct path still filters, so the two
can differ — see the counterexample.) -/
theorem filter_candidate_indices_matrix_eq_direct
    (words indices : List Nat) (guess feedback : Nat)
    (hg : guess ∈ words) (hidx : ∀ i ∈ indices, i < words.length) :
    filter_candidate_indices indices guess feedback
        (some (load_feedback_table (some (build_feedback_table_file words))
          words.length)) words words =
      filter_candidate_indices indices guess feedback none words words := by
  have hN : 0 < words.length := List.length_pos_of_mem hg
  have hblen : (build_feedback_table_file words).length =
      words.length * words.length := by
    unfold build_feedback_table_file
    exact flatten_map_length _ _ _ (fun x _ => by simp)
  have hload : load_feedback_table (some (build_feedback_table_file words))
      words.length =
      { guess_count := words.length, answer_count := words.length,
        owned_data := [],
        mapped_data := some (build_feedback_table_file words) } := by
    simp only [load_feedback_table]
    rw [if_pos ⟨hblen, Nat.mul_pos hN hN⟩]
  rw [hload]
  simp only [filter_candidate_indices]
  rw [if_pos (by rfl)]
  obtain ⟨j, hfind, hjlt, hjw⟩ := word_index_find_mem words guess hg
  rw [hfind]
  apply List.filter_congr
  intro idx hmem
  have hi : idx < words.length := hidx idx hmem
  unfold FeedbackTable.cell FeedbackTable.dataBytes
  simp only
  unfold build_feedback_table_file
  rw [flatten_map_cell words words _ j idx hjlt hi]
  rw [hjw]
  have hle := calculate_feedback_le guess (words.getD idx 0)
  rw [Nat.mod_eq_of_lt (by omega)]

/-- Witness for C2 on the one-word vocabulary ["aaaaa"], guess "aaaaa",
feedback 242. -/
theorem filter_candidate_indices_matrix_eq_direct_witness :
    (1082401 ∈ [1082401] ∧ ∀ i ∈ [0], i < ([1082401] : List Nat).length) ∧
    filter_candidate_indices [0] 1082401 242
        (some (load_feedback_table
          (some (build_feedback_table_file [1082401])) 1)) [1082401] [1082401] =
      filter_candidate_indices [0] 1082401 242 none [1082401] [1082401] :=
  ⟨⟨by decide, by decide⟩,
    filter_candidate_indices_matrix_eq_direct [1082401] [0] 1082401 242
      (by decide) (by decide)⟩

/-- Counterexample for C2 as stated: the vocabulary is ["aaaaa"] (packed
1082401) and the guess "bbbbb" (packed 2164802) is not in it.  The
matrix-backed path fails the word-index lookup and returns the empty
list, while direct computation keeps candidate 0, whose feedback under
the guess is 0. -/
theorem filter_candidate_indices_counterexample :
    filter_candidate_indices [0] 2164802 0
        (some (load_feedback_table
          (some (build_feedback_table_file [1082401])) 1)) [1082401] [1082401] =
      ([] : List Nat) ∧
    filter_candidate_indices [0] 2164802 0 none [1082401] [1082401] = [0] ∧
    ([] : List Nat) ≠ [0] :=
  ⟨by decide, by decide, by decide⟩

/-! ## Guess scoring and selection (`solver_core.cpp`) -/

/-- Embeds `compute_word_weights` of `words_data.cpp`: global letter
counts over all word positions, then per word the sum, over its distinct
letter codes, of that code's global count. -/
def compute_word_weights (words : List Nat) : List Nat :=
  let letter_counts := ((words.map codesOf).flatten).foldl bumpCount (fun _ => 0)
  words.map (fun word =>
    ((codesOf word).foldl (fun (st : (Nat → Bool) × Nat) code =>
      if st.1 code then st
      else ((fun c => if c = code then true else st.1 c),
        st.2 + letter_counts code)) ((fun _ => false), 0)).2)

/-- `s < best` against the running best score, where `none` models the
initial `DBL_MAX`: every real score is below it.  (All scores the code
produces are integers below 2^53, so `double` arithmetic is exact.) -/
def scoreLt (s : Nat) (best : Option Nat) : Bool :=
  match best with
  | none => true
  | some m => s < m

/-- `current_score >= local_min_score` for the pruning check. -/
def scoreGe (s : Nat) (best : Option Nat) : Bool :=
  match best with
  | none => false
  | some m => m ≤ s

/-- The candidate-scoring loop of `find_best_guess_worker` with its
branch-and-bound early exit: each candidate adds `2·count+1` to the
running score as it lands in its feedback bucket, and the loop stops
(pruned) as soon as the running score reaches the current best. -/
def score_loop (fb_of : Nat → Nat) (best : Option Nat) :
    List Nat → (Nat → Nat) → Nat → Nat × Bool
  | [], _, s => (s, false)
  | idx :: rest, groups, s =>
      let fb := fb_of idx
      let s' := s + (2 * groups fb + 1)
      if scoreGe s' best then (s', true)
      else score_loop fb_of best rest (bumpCount groups fb) s'

/-- The same scoring loop without the early exit: the full
`Σ (2·count+1)` accumulation over every candidate. -/
def score_full (fb_of : Nat → Nat) (indices : List Nat)
    (groups : Nat → Nat) (s : Nat) : Nat :=
  (indices.foldl (fun (st : (Nat → Nat) × Nat) idx =>
    let fb := fb_of idx
    (bumpCount st.1 fb, st.2 + (2 * st.1 fb + 1))) (groups, s)).2

/-- The full score of a guess against the candidate set on the direct
(no-table) path. -/
def direct_score (possible_indices words : List Nat) (guess : Nat) : Nat :=
  score_full (fun idx => calculate_feedback_encoded guess (words.getD idx 0))
    possible_indices (fun _ => 0) 0

/-- Sum of squared feedback-bucket sizes — the spec's expected-remaining
score (§4.4): partition the candidates by feedback under the guess and
add up the squares of the bucket sizes. -/
def bucket_square_score (possible_indices words : List Nat) (guess : Nat) :
    Nat :=
  (Finset.range 243).sum (fun fb =>
    ((possible_indices.map (fun idx =>
      calculate_feedback_encoded guess (words.getD idx 0))).count fb) ^ 2)

/-- The weight lookup at the end of the worker loop
(`lookups.word_index.find(guess)`, defaulting to 0 when absent). -/
def lookup_weight (lookups weights : List Nat) (guess : Nat) : Nat :=
  match word_index_find lookups guess with
  | none => 0
  | some j => weights.getD j 0

/-- The running state of `find_best_guess_worker`'s guess loop. -/
structure WorkerState where
  local_best_guess : Nat := 0
  local_min_score : Option Nat := none
  local_best_weight : Nat := 0

/-- The post-scoring update of `find_best_guess_worker`: a pruned guess
is skipped, otherwise the `(score, weight)` tie-break decides whether it
becomes the local best. -/
def worker_update (lookups weights : List Nat) (st : WorkerState)
    (guess : Nat) (r : Nat × Bool) : WorkerState :=
  if r.2 then st
  else if scoreLt r.1 st.local_min_score ||
      ((st.local_min_score == some r.1) &&
        decide (st.local_best_weight < lookup_weight lookups weights guess)) then
    { local_best_guess := guess, local_min_score := some r.1,
      local_best_weight := lookup_weight lookups weights guess }
  else st

/-- One iteration of `find_best_guess_worker`'s guess loop
(`solver_core.cpp` version, with the weight tie-break): table-backed
scoring when a loaded table is supplied (skipping guesses missing from
the word index, as `continue` does), direct scoring otherwise. -/
def worker_step (possible_indices : List Nat)
    (feedback_table : Option FeedbackTable) (lookups words weights : List Nat)
    (st : WorkerState) (guess : Nat) : WorkerState :=
  match feedback_table with
  | some table =>
      if table.loaded then
        match word_index_find lookups guess with
        | none => st
        | some guess_idx =>
            worker_update lookups weights st guess
              (score_loop (fun idx => table.cell guess_idx idx)
                st.local_min_score possible_indices (fun _ => 0) 0)
      else
        worker_update lookups weights st guess
          (score_loop
            (fun idx => calculate_feedback_encoded guess (words.getD idx 0))
            st.local_min_score possible_indices (fun _ => 0) 0)
  | none =>
      worker_update lookups weights st guess
        (score_loop
          (fun idx => calculate_feedback_encoded guess (words.getD idx 0))
          st.local_min_score possible_indices (fun _ => 0) 0)

/-- Embeds `find_best_guess_worker`: fold the guess subset through the
scoring loop and return `(local_best_guess, local_min_score)`. -/
def find_best_guess_worker (possible_indices guess_subset : List Nat)
    (feedback_table : Option FeedbackTable) (lookups words weights : List Nat) :
    Nat × Option Nat :=
  let st := guess_subset.foldl
    (worker_step possible_indices feedback_table lookups words weights) {}
  (st.local_best_guess, st.local_min_score)

/-- The unpruned worker, stated from the spec's words (§4.4): identical
except that every guess is fully scored — no early exit ever happens. -/
def find_best_guess_worker_unpruned (possible_indices guess_subset : List Nat)
    (feedback_table : Option FeedbackTable) (lookups words weights : List Nat) :
    Nat × Option Nat :=
  let st := guess_subset.foldl (fun st guess =>
    match feedback_table with
    | some table =>
        if table.loaded then
          match word_index_find lookups guess with
          | none => st
          | some guess_idx =>
              worker_update lookups weights st guess
                (score_full (fun idx => table.cell guess_idx idx)
                  possible_indices (fun _ => 0) 0, false)
        else
          worker_update lookups weights st guess
            (score_full
              (fun idx => calculate_feedback_encoded guess (words.getD idx 0))
              possible_indices (fun _ => 0) 0, false)
    | none =>
        worker_update lookups weights st guess
          (score_full
            (fun idx => calculate_feedback_encoded guess (words.getD idx 0))
            possible_indices (fun _ => 0) 0, false)) {}
  (st.local_best_guess, st.local_min_score)

/-- The base-3 digits of a feedback value, most significant first — the
decoding loop at the top of `is_valid_hard_mode_guess`. -/
def feedback_digits (feedback : Nat) : List Nat :=
  [feedback / 81 % 3, feedback / 27 % 3, feedback / 9 % 3, feedback / 3 % 3,
   feedback % 3]

/-- Embeds `is_valid_hard_mode_guess`: every green position of the
previous guess must repeat the same letter, and every yellow letter must
appear in the new guess with at least the required multiplicity. -/
def is_valid_hard_mode_guess (potential_guess previous_guess
    previous_feedback : Nat) : Bool :=
  let prev_codes := codesOf previous_guess
  let pot_codes := codesOf potential_guess
  let fb_codes := feedback_digits previous_feedback
  let rule1 := (List.range 5).all (fun i =>
    !(fb_codes.getD i 0 == 2) || (pot_codes.getD i 0 == prev_codes.getD i 0))
  let required_yellows := (List.range 5).foldl (fun m i =>
    if fb_codes.getD i 0 = 1 then bumpCount m (prev_codes.getD i 0) else m)
    (fun _ => 0)
  let pot_counts := pot_codes.foldl bumpCount (fun _ => 0)
  rule1 && (List.range' 1 26).all (fun i => required_yellows i ≤ pot_counts i)

/-- Round-robin distribution of the guess list over the worker chunks:
`word_chunks[i % num_threads].push_back(words[i])`. -/
def word_chunks (num_threads : Nat) (guesses : List Nat) : List (List Nat) :=
  (List.range num_threads).map (fun r =>
    (guesses.enum.filter (fun p => p.1 % num_threads == r)).map Prod.snd)

/-- `result.second < min_overall_score` in the future-join reduction;
`none` models `DBL_MAX` on either side. -/
def resultLt (a b : Option Nat) : Bool :=
  match a, b with
  | none, _ => false
  | some _, none => true
  | some x, some y => x < y

/-- One step of the reduction over joined worker results: adopt a result
exactly when its score is strictly below the best so far. -/
def reduce_step (best r : Nat × Option Nat) : Nat × Option Nat :=
  if resultLt r.2 best.2 then (r.1, r.2) else best

/-- Embeds `find_best_guess_encoded`: hard-mode prefilter, round-robin
chunking over `num_threads` workers (the `hardware_concurrency` value, 0
coerced to 4), one worker per non-empty chunk, and the strict-less
reduction over worker results in chunk order (`fut.get` joins in order,
which makes the parallel map-reduce deterministic for a fixed chunking). -/
def find_best_guess_encoded (possible_indices words : List Nat)
    (hard_mode : Bool) (previous_guess previous_feedback : Nat)
    (feedback_table : Option FeedbackTable) (lookups weights : List Nat)
    (num_threads : Nat) : Nat :=
  if possible_indices.isEmpty then 0
  else
    let guesses_to_check :=
      if hard_mode && !(previous_guess == 0) then
        words.filter (fun g =>
          is_valid_hard_mode_guess g previous_guess previous_feedback)
      else words
    let T := if num_threads = 0 then 4 else num_threads
    let chunks := (word_chunks T guesses_to_check).filter (fun c => !c.isEmpty)
    let results := chunks.map (fun c =>
      find_best_guess_worker possible_indices c feedback_table lookups words
        weights)
    (results.foldl reduce_step (0, none)).1

section SelectionLemmas

/-- Order on running scores with `none` as `DBL_MAX`. -/
def oLe (a b : Option Nat) : Prop :=
  match a, b with
  | _, none => True
  | some x, some y => x ≤ y
  | none, some _ => False

/-- The step the pruned worker is equivalent to on the direct path with a
non-empty candidate set: take the guess exactly when its full score beats
the running minimum strictly. -/
def sel_step (possible_indices lookups words weights : List Nat)
    (st : WorkerState) (g : Nat) : WorkerState :=
  if scoreLt (direct_score possible_indices words g) st.local_min_score then
    { local_best_guess := g,
      local_min_score := some (direct_score possible_indices words g),
      local_best_weight := lookup_weight lookups weights g }
  else st

theorem score_full_ge (f : Nat → Nat) (idxs : List Nat) (groups : Nat → Nat)
    (s : Nat) : s ≤ score_full f idxs groups s := by
  induction idxs generalizing groups s with
  | nil => simp [score_full]
  | cons i rest ih =>
      have h := ih (bumpCount groups (f i)) (s + (2 * groups (f i) + 1))
      simp only [score_full, List.foldl_cons] at h ⊢
      omega

theorem score_full_cons (f : Nat → Nat) (i : Nat) (rest : List Nat)
    (groups : Nat → Nat) (s : Nat) :
    score_full f (i :: rest) groups s =
      score_full f rest (bumpCount groups (f i)) (s + (2 * groups (f i) + 1)) := by
  simp [score_full]

theorem scoreGe_mono (s t : Nat) (best : Option Nat) (h : s ≤ t)
    (hs : scoreGe s best = true) : scoreGe t best = true := by
  cases best with
  | none => simp [scoreGe] at hs
  | some m => simp [scoreGe] at hs ⊢; omega

theorem score_loop_pruned_iff (f : Nat → Nat) (best : Option Nat)
    (idxs : List Nat) (groups : Nat → Nat) (s : Nat) :
    (score_loop f best idxs groups s).2 = true ↔
      (idxs ≠ [] ∧ scoreGe (score_full f idxs groups s) best = true) := by
  induction idxs generalizing groups s with
  | nil => simp [score_loop]
  | cons i rest ih =>
      rw [score_loop, score_full_cons]
      by_cases hp : scoreGe (s + (2 * groups (f i) + 1)) best = true
      · rw [if_pos hp]
        simp only [ne_eq, reduceCtorEq, not_false_iff, true_and]
        constructor
        · intro _
          exact scoreGe_mono _ _ _ (score_full_ge _ _ _ _) hp
        · intro _
          trivial
      · rw [if_neg hp, ih]
        constructor
        · rintro ⟨hrest, hge⟩
          exact ⟨by simp, hge⟩
        · rintro ⟨_, hge⟩
          refine ⟨?_, hge⟩
          intro hnil
          subst hnil
          simp [score_full] at hge
          exact hp hge
  
theorem score_loop_fst (f : Nat → Nat) (best : Option Nat) (idxs : List Nat)
    (groups : Nat → Nat) (s : Nat)
    (h : (score_loop f best idxs groups s).2 = false) :
    (score_loop f best idxs groups s).1 = score_full f idxs groups s := by
  induction idxs generalizing groups s with
  | nil => simp [score_loop, score_full]
  | cons i rest ih =>
      rw [score_loop] at h ⊢
      rw [score_full_cons]
      by_cases hp : scoreGe (s + (2 * groups (f i) + 1)) best = true
      · rw [if_pos hp] at h
        simp at h
      · rw [if_neg hp] at h ⊢
        exact ih _ _ h

theorem worker_step_eq_sel (possible_indices lookups words weights : List Nat)
    (hne : possible_indices ≠ []) (st : WorkerState) (g : Nat) :
    worker_step possible_indices none lookups words weights st g =
      sel_step possible_indices lookups words weights st g := by
  simp only [worker_step, sel_step, worker_update, direct_score]
  set f := fun idx => calculate_feedback_encoded g (words.getD idx 0) with hf
  set full := score_full f possible_indices (fun _ => 0) 0 with hfull
  by_cases hp : scoreGe full st.local_min_score = true
  · have h2 : (score_loop f st.local_min_score possible_indices
        (fun _ => 0) 0).2 = true :=
      (score_loop_pruned_iff _ _ _ _ _).mpr ⟨hne, hp⟩
    rw [if_pos h2]
    have hlt : scoreLt full st.local_min_score = false := by
      cases hmin : st.local_min_score with
      | none => rw [hmin] at hp; simp [scoreGe] at hp
      | some m =>
          rw [hmin] at hp
          simp [scoreGe] at hp
          simp [scoreLt]
          omega
    rw [hfull] at hlt
    rw [if_neg (by simp [hlt])]
  · have h2 : (score_loop f st.local_min_score possible_indices
        (fun _ => 0) 0).2 = false := by
      rw [Bool.eq_false_iff]
      intro hcon
      exact hp ((score_loop_pruned_iff _ _ _ _ _).mp hcon).2
    rw [if_neg (by simp [h2])]
    have h1 := score_loop_fst f st.local_min_score possible_indices
      (fun _ => 0) 0 h2
    rw [h1]
    have hlt : scoreLt full st.local_min_score = true := by
      cases hmin : st.local_min_score with
      | none => simp [scoreLt]
      | some m =>
          rw [hmin] at hp
          simp [scoreGe] at hp
          simp [scoreLt]
          omega
    rw [if_pos (by rw [hfull] at hlt; simp [hlt])]
    rw [if_pos hlt]

theorem worker_foldl_eq_sel (possible_indices lookups words weights : List Nat)
    (hne : possible_indices ≠ []) (gs : List Nat) (st : WorkerState) :
    gs.foldl (worker_step possible_indices none lookups words weights) st =
      gs.foldl (sel_step possible_indices lookups words weights) st := by
  induction gs generalizing st with
  | nil => rfl
  | cons g gs ih =>
      simp only [List.foldl_cons]
      rw [worker_step_eq_sel _ _ _ _ hne, ih]

end SelectionLemmas

section SelFoldLemmas

variable (possible_indices lookups words weights : List Nat)

theorem oLe_refl (a : Option Nat) : oLe a a := by
  cases a <;> simp [oLe]

theorem oLe_trans (a b c : Option Nat) (h1 : oLe a b) (h2 : oLe b c) :
    oLe a c := by
  cases a <;> cases b <;> cases c <;> simp [oLe] at * <;> omega

theorem sel_step_min_le (st : WorkerState) (g : Nat) :
    oLe ((sel_step possible_indices lookups words weights st g).local_min_score)
      st.local_min_score := by
  unfold sel_step
  split_ifs with h
  · cases hmin : st.local_min_score with
    | none => simp [oLe]
    | some m =>
        rw [hmin] at h
        simp [scoreLt] at h
        simp [oLe]
        omega
  · exact oLe_refl _

theorem sel_fold_min_mono (gs : List Nat) (st : WorkerState) :
    oLe ((gs.foldl (sel_step possible_indices lookups words weights)
        st).local_min_score) st.local_min_score := by
  induction gs generalizing st with
  | nil => exact oLe_refl _
  | cons g gs ih =>
      simp only [List.foldl_cons]
      exact oLe_trans _ _ _ (ih _) (sel_step_min_le _ _ _ _ _ _)

theorem sel_fold_min_le_mem (gs : List Nat) (st : WorkerState) (g : Nat)
    (hg : g ∈ gs) :
    oLe ((gs.foldl (sel_step possible_indices lookups words weights)
        st).local_min_score)
      (some (direct_score possible_indices words g)) := by
  induction gs generalizing st with
  | nil => cases hg
  | cons x gs ih =>
      simp only [List.foldl_cons]
      rcases List.mem_cons.mp hg with rfl | hg'
      · refine oLe_trans _ _ _ (sel_fold_min_mono _ _ _ _ _ _) ?_
        unfold sel_step
        split_ifs with h
        · simp [oLe]
        · cases hmin : st.local_min_score with
          | none => rw [hmin] at h; simp [scoreLt] at h
          | some m =>
              rw [hmin] at h
              simp [scoreLt] at h
              simp [oLe]
              omega
      · exact ih _ hg'

theorem sel_fold_attained (gs : List Nat) (st : WorkerState) :
    gs.foldl (sel_step possible_indices lookups words weights) st = st ∨
      ((gs.foldl (sel_step possible_indices lookups words weights)
          st).local_best_guess ∈ gs ∧
        (gs.foldl (sel_step possible_indices lookups words weights)
          st).local_min_score =
          some (direct_score possible_indices words
            (gs.foldl (sel_step possible_indices lookups words weights)
              st).local_best_guess)) := by
  induction gs generalizing st with
  | nil => left; rfl
  | cons g gs ih =>
      simp only [List.foldl_cons]
      by_cases h : scoreLt (direct_score possible_indices words g)
          st.local_min_score = true
      · have hupdate :
            (sel_step possible_indices lookups words weights st
              g).local_best_guess = g ∧
            (sel_step possible_indices lookups words weights st
              g).local_min_score =
              some (direct_score possible_indices words g) := by
          rw [sel_step, if_pos h]
          exact ⟨rfl, rfl⟩
        rcases ih (sel_step possible_indices lookups words weights st g) with
          heq | ⟨hmem, hscore⟩
        · right
          rw [heq]
          rw [hupdate.1, hupdate.2]
          exact ⟨List.mem_cons_self _ _, rfl⟩
        · right
          exact ⟨List.mem_cons_of_mem _ hmem, hscore⟩
      · have hupdate : sel_step possible_indices lookups words weights st g =
            st := by
          rw [sel_step, if_neg h]
        rw [hupdate]
        rcases ih st with heq | ⟨hmem, hscore⟩
        · left
          exact heq
        · right
          exact ⟨List.mem_cons_of_mem _ hmem, hscore⟩

theorem sel_fold_some (gs : List Nat) (st : WorkerState) (hgs : gs ≠ []) :
    ∃ m, (gs.foldl (sel_step possible_indices lookups words weights)
        st).local_min_score = some m := by
  cases gs with
  | nil => exact absurd rfl hgs
  | cons g gs =>
      simp only [List.foldl_cons]
      have hstep : ∃ m, ((sel_step possible_indices lookups words weights
          st g).local_min_score) = some m := by
        unfold sel_step
        split_ifs with h
        · exact ⟨_, rfl⟩
        · cases hmin : st.local_min_score with
          | none => rw [hmin] at h; simp [scoreLt] at h
          | some m => exact ⟨m, rfl⟩
      obtain ⟨m, hm⟩ := hstep
      have := sel_fold_min_mono possible_indices lookups words weights gs
        (sel_step possible_indices lookups words weights st g)
      rw [hm] at this
      cases hfin : (gs.foldl (sel_step possible_indices lookups words weights)
          (sel_step possible_indices lookups words weights st g)).local_min_score with
      | none => rw [hfin] at this; simp [oLe] at this
      | some m' => exact ⟨m', rfl⟩

/-- Full characterization of the pruned worker on the direct path:
the returned pair is a minimal-score guess of the subset together with
its score. -/
theorem worker_direct_char (gs : List Nat) (hne : possible_indices ≠ [])
    (hgs : gs ≠ []) :
    ∃ b m, find_best_guess_worker possible_indices gs none lookups words
        weights = (b, some m) ∧ b ∈ gs ∧
      direct_score possible_indices words b = m ∧
      ∀ g ∈ gs, m ≤ direct_score possible_indices words g := by
  unfold find_best_guess_worker
  rw [worker_foldl_eq_sel _ _ _ _ hne]
  obtain ⟨m, hm⟩ := sel_fold_some possible_indices lookups words weights gs {} hgs
  rcases sel_fold_attained possible_indices lookups words weights gs {} with
    heq | ⟨hmem, hscore⟩
  · rw [heq] at hm
    simp at hm
  · refine ⟨_, m, by simp only [hm], hmem, ?_, ?_⟩
    · rw [hscore] at hm
      exact Option.some.inj hm
    · intro g hg
      have := sel_fold_min_le_mem possible_indices lookups words weights gs {} g hg
      rw [hm] at this
      simpa [oLe] using this

end SelFoldLemmas

section UnprunedLemmas

variable (possible_indices lookups words weights : List Nat)

/-- The guess step of the unpruned worker on the direct path. -/
def unpruned_step_direct (st : WorkerState) (g : Nat) : WorkerState :=
  worker_update lookups weights st g
    (score_full (fun idx => calculate_feedback_encoded g (words.getD idx 0))
      possible_indices (fun _ => 0) 0, false)

theorem unpruned_worker_eq_fold (gs : List Nat) :
    find_best_guess_worker_unpruned possible_indices gs none lookups words
        weights =
      ((gs.foldl (unpruned_step_direct possible_indices lookups words weights)
          {}).local_best_guess,
        (gs.foldl (unpruned_step_direct possible_indices lookups words weights)
          {}).local_min_score) := rfl

theorem unpruned_step_min_eq_sel (st1 st2 : WorkerState) (g : Nat)
    (h : st1.local_min_score = st2.local_min_score) :
    (unpruned_step_direct possible_indices lookups words weights st1
        g).local_min_score =
      (sel_step possible_indices lookups words weights st2
        g).local_min_score := by
  unfold unpruned_step_direct worker_update sel_step
  simp only [direct_score]
  set s := score_full
    (fun idx => calculate_feedback_encoded g (words.getD idx 0))
    possible_indices (fun _ => 0) 0 with hs
  rw [if_neg (by simp)]
  by_cases hlt : scoreLt s st1.local_min_score = true
  · rw [if_pos (by simp [hlt]), if_pos (h ▸ hlt)]
  · by_cases htie : (st1.local_min_score == some s) = true
    · have hmin : st1.local_min_score = some s := by simpa using htie
      by_cases hw : decide (st1.local_best_weight <
          lookup_weight lookups weights g) = true
      · rw [if_pos (by simp [htie, hw]), if_neg (h ▸ hlt)]
        rw [← h, hmin]
      · rw [if_neg (by simp [hlt, hw]), if_neg (h ▸ hlt)]
        exact h
    · rw [if_neg (by simp [hlt, htie]), if_neg (h ▸ hlt)]
      exact h

theorem unpruned_fold_min_eq_sel (gs : List Nat) (st1 st2 : WorkerState)
    (h : st1.local_min_score = st2.local_min_score) :
    (gs.foldl (unpruned_step_direct possible_indices lookups words weights)
        st1).local_min_score =
      (gs.foldl (sel_step possible_indices lookups words weights)
        st2).local_min_score := by
  induction gs generalizing st1 st2 with
  | nil => exact h
  | cons g gs ih =>
      simp only [List.foldl_cons]
      exact ih _ _ (unpruned_step_min_eq_sel _ _ _ _ st1 st2 g h)

theorem unpruned_fold_attained (gs : List Nat) (st : WorkerState) :
    gs.foldl (unpruned_step_direct possible_indices lookups words weights)
        st = st ∨
      ((gs.foldl (unpruned_step_direct possible_indices lookups words weights)
          st).local_best_guess ∈ gs ∧
        (gs.foldl (unpruned_step_direct possible_indices lookups words weights)
          st).local_min_score =
          some (direct_score possible_indices words
            (gs.foldl (unpruned_step_direct possible_indices lookups words
              weights) st).local_best_guess)) := by
  induction gs generalizing st with
  | nil => left; rfl
  | cons g gs ih =>
      simp only [List.foldl_cons]
      have hcases : unpruned_step_direct possible_indices lookups words weights
          st g = st ∨
          ((unpruned_step_direct possible_indices lookups words weights st
            g).local_best_guess = g ∧
          (unpruned_step_direct possible_indices lookups words weights st
            g).local_min_score =
            some (direct_score possible_indices words g)) := by
        unfold unpruned_step_direct worker_update
        rw [if_neg (by simp)]
        split_ifs with hcond
        · right
          exact ⟨rfl, rfl⟩
        · left
          rfl
      rcases hcases with hkeep | ⟨hbest, hmin⟩
      · rw [hkeep]
        exact (ih st).imp id (fun ⟨a, b⟩ => ⟨List.mem_cons_of_mem _ a, b⟩)
      · rcases ih (unpruned_step_direct possible_indices lookups words weights
            st g) with heq | ⟨hmem, hscore⟩
        · right
          rw [heq, hbest, hmin]
          exact ⟨List.mem_cons_self _ _, rfl⟩
        · right
          exact ⟨List.mem_cons_of_mem _ hmem, hscore⟩

/-- Characterization of the unpruned worker: it also returns a
minimal-score guess of the subset with its score. -/
theorem unpruned_worker_char (gs : List Nat) (hgs : gs ≠ []) :
    ∃ b m, find_best_guess_worker_unpruned possible_indices gs none lookups
        words weights = (b, some m) ∧ b ∈ gs ∧
      direct_score possible_indices words b = m ∧
      ∀ g ∈ gs, m ≤ direct_score possible_indices words g := by
  rw [unpruned_worker_eq_fold]
  have hmineq := unpruned_fold_min_eq_sel possible_indices lookups words
    weights gs {} {} rfl
  obtain ⟨m, hm⟩ := sel_fold_some possible_indices lookups words weights gs {} hgs
  rw [← hmineq] at hm
  rcases unpruned_fold_attained possible_indices lookups words weights gs {} with
    heq | ⟨hmem, hscore⟩
  · rw [heq] at hm
    simp at hm
  · refine ⟨_, m, by rw [hm], hmem, ?_, ?_⟩
    · rw [hscore] at hm
      exact Option.some.inj hm
    · intro g hg
      have hle := sel_fold_min_le_mem possible_indices lookups words weights
        gs {} g hg
      rw [← hmineq, hm] at hle
      simpa [oLe] using hle

end UnprunedLemmas

/-- C3 amended: on a non-empty candidate set, the pruned and unpruned
best-guess searches always agree on the minimal score, and return the
same guess whenever exactly one guess of the subset attains that minimal
score.  (When several guesses tie, they can differ: pruning abandons a
guess whose running score merely reaches the current best, so the
unpruned weight tie-break among equal scores never executes — see the
counterexample.) -/
theorem find_best_guess_worker_pruning (possible_indices gs lookups words
    weights : List Nat) (hne : possible_indices ≠ []) :
    (find_best_guess_worker possible_indices gs none lookups words
        weights).2 =
      (find_best_guess_worker_unpruned possible_indices gs none lookups words
        weights).2 ∧
    ((∀ g1 ∈ gs, ∀ g2 ∈ gs,
        (∀ h ∈ gs, direct_score possible_indices words g1 ≤
          direct_score possible_indices words h) →
        (∀ h ∈ gs, direct_score possible_indices words g2 ≤
          direct_score possible_indices words h) →
        g1 = g2) →
      find_best_guess_worker possible_indices gs none lookups words weights =
        find_best_guess_worker_unpruned possible_indices gs none lookups words
          weights) := by
  have hsnd : (find_best_guess_worker possible_indices gs none lookups words
      weights).2 =
      (find_best_guess_worker_unpruned possible_indices gs none lookups words
        weights).2 := by
    rw [unpruned_worker_eq_fold]
    unfold find_best_guess_worker
    rw [worker_foldl_eq_sel _ _ _ _ hne]
    simp only
    exact (unpruned_fold_min_eq_sel possible_indices lookups words weights gs
      {} {} rfl).symm
  refine ⟨hsnd, ?_⟩
  intro huniq
  cases hgs : gs with
  | nil => rfl
  | cons g0 gs0 =>
      rw [← hgs]
      have hgsne : gs ≠ [] := by rw [hgs]; simp
      obtain ⟨b1, m1, heq1, hmem1, hds1, hmin1⟩ :=
        worker_direct_char possible_indices lookups words weights gs hne hgsne
      obtain ⟨b2, m2, heq2, hmem2, hds2, hmin2⟩ :=
        unpruned_worker_char possible_indices lookups words weights gs hgsne
      have hm : m1 = m2 := by
        have := hsnd
        rw [heq1, heq2] at this
        simpa using this
      have hb : b1 = b2 := by
        refine huniq b1 hmem1 b2 hmem2 ?_ ?_
        · intro h hh
          rw [hds1]
          exact hmin1 h hh
        · intro h hh
          rw [hds2]
          exact hmin2 h hh
      rw [heq1, heq2, hb, hm]

/-- Witness for C3 on candidate set {0}, vocabulary ["aaaaa"], guess
subset ["aaaaa"]. -/
theorem find_best_guess_worker_pruning_witness :
    (([0] : List Nat) ≠ []) ∧
    ((find_best_guess_worker [0] [1082401] none [1082401] [1082401] [7]).2 =
      (find_best_guess_worker_unpruned [0] [1082401] none [1082401] [1082401]
        [7]).2) :=
  ⟨by decide,
    (find_best_guess_worker_pruning [0] [1082401] [1082401] [1082401] [7]
      (by decide)).1⟩

/-- Counterexample for C3 as stated: candidates {"aaaaa"}, guess subset
["aaaaa", "aabbb"] with the computed weights [7, 10].  Both guesses score
1, so the pruned search abandons "aabbb" the moment its running score
reaches 1 and keeps "aaaaa", while the unpruned computation applies the
weight tie-break and returns "aabbb". -/
theorem find_best_guess_worker_pruning_counterexample :
    find_best_guess_worker [0] [1082401, 1083458] none [1082401, 1083458]
        [1082401, 1083458] (compute_word_weights [1082401, 1083458]) =
      (1082401, some 1) ∧
    find_best_guess_worker_unpruned [0] [1082401, 1083458] none
        [1082401, 1083458] [1082401, 1083458]
        (compute_word_weights [1082401, 1083458]) = (1083458, some 1) ∧
    (1082401 : Nat) ≠ 1083458 :=
  ⟨by decide, by decide, by decide⟩

section ChunkReduceLemmas

theorem oLe_of_resultLt_false (a b : Option Nat) (h : resultLt a b = false) :
    oLe b a := by
  cases a <;> cases b <;> simp [resultLt, oLe] at * <;> omega

theorem oLe_of_resultLt_true (a b : Option Nat) (h : resultLt a b = true) :
    oLe a b := by
  cases a <;> cases b <;> simp [resultLt, oLe] at * <;> omega

theorem reduce_fold_mono (rs : List (Nat × Option Nat))
    (init : Nat × Option Nat) : oLe (rs.foldl reduce_step init).2 init.2 := by
  induction rs generalizing init with
  | nil => exact oLe_refl _
  | cons r rs ih =>
      simp only [List.foldl_cons]
      refine oLe_trans _ _ _ (ih _) ?_
      unfold reduce_step
      split_ifs with h
      · exact oLe_of_resultLt_true _ _ h
      · exact oLe_refl _

theorem reduce_fold_le_mem (rs : List (Nat × Option Nat))
    (init : Nat × Option Nat) (r : Nat × Option Nat) (hr : r ∈ rs) :
    oLe (rs.foldl reduce_step init).2 r.2 := by
  induction rs generalizing init with
  | nil => cases hr
  | cons x rs ih =>
      simp only [List.foldl_cons]
      rcases List.mem_cons.mp hr with rfl | hr'
      · refine oLe_trans _ _ _ (reduce_fold_mono _ _) ?_
        unfold reduce_step
        split_ifs with h
        · exact oLe_refl _
        · exact oLe_of_resultLt_false _ _ (by simpa using h)
      · exact ih _ hr'

theorem reduce_fold_attained (rs : List (Nat × Option Nat))
    (init : Nat × Option Nat) :
    rs.foldl reduce_step init = init ∨
      ∃ r ∈ rs, rs.foldl reduce_step init = (r.1, r.2) := by
  induction rs generalizing init with
  | nil => left; rfl
  | cons x rs ih =>
      simp only [List.foldl_cons]
      unfold reduce_step
      split_ifs with h
      · rcases ih (x.1, x.2) with heq | ⟨r, hr, heq⟩
        · right
          exact ⟨x, List.mem_cons_self _ _, heq⟩
        · right
          exact ⟨r, List.mem_cons_of_mem _ hr, heq⟩
      · rcases ih init with heq | ⟨r, hr, heq⟩
        · left
          exact heq
        · right
          exact ⟨r, List.mem_cons_of_mem _ hr, heq⟩

theorem enumFrom_snd_mem {α : Type} (l : List α) (k : Nat) (p : Nat × α)
    (h : p ∈ List.enumFrom k l) : p.2 ∈ l := by
  induction l generalizing k with
  | nil => cases h
  | cons x xs ih =>
      rcases List.mem_cons.mp h with rfl | h'
      · exact List.mem_cons_self _ _
      · exact List.mem_cons_of_mem _ (ih (k + 1) h')

theorem enumFrom_mem_of_mem {α : Type} (l : List α) (k : Nat) (x : α)
    (h : x ∈ l) : ∃ i, (i, x) ∈ List.enumFrom k l := by
  induction l generalizing k with
  | nil => cases h
  | cons y ys ih =>
      rcases List.mem_cons.mp h with rfl | h'
      · exact ⟨k, List.mem_cons_self _ _⟩
      · obtain ⟨i, hi⟩ := ih (k + 1) h'
        exact ⟨i, List.mem_cons_of_mem _ hi⟩

theorem word_chunks_subset (T : Nat) (gs c : List Nat) (g : Nat)
    (hc : c ∈ word_chunks T gs) (hg : g ∈ c) : g ∈ gs := by
  unfold word_chunks at hc
  obtain ⟨r, _, rfl⟩ := List.mem_map.mp hc
  obtain ⟨p, hp, rfl⟩ := List.mem_map.mp hg
  have hmem := (List.mem_filter.mp hp).1
  exact enumFrom_snd_mem gs 0 p (by simpa [List.enum] using hmem)

theorem word_chunks_cover (T : Nat) (gs : List Nat) (g : Nat) (hT : 0 < T)
    (hg : g ∈ gs) : ∃ c ∈ word_chunks T gs, g ∈ c := by
  obtain ⟨i, hi⟩ := enumFrom_mem_of_mem gs 0 g hg
  refine ⟨_, List.mem_map.mpr
    ⟨i % T, List.mem_range.mpr (Nat.mod_lt _ hT), rfl⟩, ?_⟩
  refine List.mem_map.mpr ⟨(i, g), List.mem_filter.mpr
    ⟨by simpa [List.enum] using hi, ?_⟩, rfl⟩
  simp

end ChunkReduceLemmas

section ScoreInvariant

theorem score_full_sq_invariant (f : Nat → Nat) (idxs : List Nat)
    (hf : ∀ i ∈ idxs, f i < 243) (groups : Nat → Nat) (s : Nat) :
    score_full f idxs groups s +
        (Finset.range 243).sum (fun x => groups x ^ 2) =
      s + (Finset.range 243).sum
        (fun x => (groups x + (idxs.map f).count x) ^ 2) := by
  induction idxs generalizing groups s with
  | nil => simp [score_full]
  | cons i rest ih =>
      rw [score_full_cons]
      have hfi : f i < 243 := hf i (List.mem_cons_self _ _)
      have ih' := ih (fun j hj => hf j (List.mem_cons_of_mem _ hj))
        (bumpCount groups (f i)) (s + (2 * groups (f i) + 1))
      have hpoint : ∀ x, bumpCount groups (f i) x + (rest.map f).count x =
          groups x + ((i :: rest).map f).count x := by
        intro x
        by_cases hx : x = f i
        · subst hx
          simp [bumpCount, List.count_cons]
          omega
        · have hbx : (f i == x) = false :=
            beq_eq_false_iff_ne.mpr (fun hh => hx hh.symm)
          simp [bumpCount, List.count_cons, hx, hbx]
      have hsum1 : (Finset.range 243).sum
            (fun x => (bumpCount groups (f i) x + (rest.map f).count x) ^ 2) =
          (Finset.range 243).sum
            (fun x => (groups x + ((i :: rest).map f).count x) ^ 2) :=
        Finset.sum_congr rfl (fun x _ => by rw [hpoint x])
      have hmem : f i ∈ Finset.range 243 := Finset.mem_range.mpr hfi
      have hb1 : (Finset.range 243).sum (fun x => bumpCount groups (f i) x ^ 2) =
          bumpCount groups (f i) (f i) ^ 2 +
            ((Finset.range 243).erase (f i)).sum
              (fun x => bumpCount groups (f i) x ^ 2) :=
        (Finset.add_sum_erase _ _ hmem).symm
      have hb2 : (Finset.range 243).sum (fun x => groups x ^ 2) =
          groups (f i) ^ 2 +
            ((Finset.range 243).erase (f i)).sum (fun x => groups x ^ 2) :=
        (Finset.add_sum_erase _ _ hmem).symm
      have hb3 : ((Finset.range 243).erase (f i)).sum
            (fun x => bumpCount groups (f i) x ^ 2) =
          ((Finset.range 243).erase (f i)).sum (fun x => groups x ^ 2) := by
        refine Finset.sum_congr rfl (fun x hx => ?_)
        have hxne : x ≠ f i := (Finset.mem_erase.mp hx).1
        simp [bumpCount, hxne]
      have hb4 : bumpCount groups (f i) (f i) = groups (f i) + 1 := by
        simp [bumpCount]
      have hsq : (groups (f i) + 1) ^ 2 = groups (f i) ^ 2 +
          2 * groups (f i) + 1 := by ring
      rw [hb4] at hb1
      rw [hsum1] at ih'
      omega

/-- The incrementally accumulated score is the sum of squared bucket
sizes. -/
theorem direct_score_eq_bucket (possible_indices words : List Nat) (g : Nat) :
    direct_score possible_indices words g =
      bucket_square_score possible_indices words g := by
  unfold direct_score bucket_square_score
  have h := score_full_sq_invariant
    (fun idx => calculate_feedback_encoded g (words.getD idx 0))
    possible_indices
    (fun i _ => by
      show calculate_feedback_encoded g (words.getD i 0) < 243
      have := calculate_feedback_le g (words.getD i 0)
      omega)
    (fun _ => 0) 0
  simpa using h

end ScoreInvariant

/-- C5 amended: for non-empty candidate set and vocabulary on the direct
path, `find_best_guess_encoded` returns a vocabulary guess achieving the
minimal sum of squared bucket sizes.  (The weight tie-break is not part of
the returned choice: with a non-empty candidate set the pruning check
fires on score equality, so equal-score guesses are skipped and ties fall
to chunk-reduction order, not to the highest `WeightTable` value — see
the counterexample.) -/
theorem find_best_guess_encoded_achieves_min
    (possible_indices words weights : List Nat) (num_threads : Nat)
    (hne : possible_indices ≠ []) (hw : words ≠ []) :
    find_best_guess_encoded possible_indices words false 0 0 none words
        weights num_threads ∈ words ∧
    ∀ g ∈ words,
      bucket_square_score possible_indices words
          (find_best_guess_encoded possible_indices words false 0 0 none words
            weights num_threads) ≤
        bucket_square_score possible_indices words g := by
  unfold find_best_guess_encoded
  rw [if_neg (by simp [List.isEmpty_iff, hne])]
  simp only [Bool.false_and, Bool.false_eq_true, if_false]
  set T := if num_threads = 0 then 4 else num_threads with hT
  have hTpos : 0 < T := by
    rw [hT]; split_ifs <;> omega
  set chunks := (word_chunks T words).filter (fun c => !c.isEmpty) with hchunks
  set results := chunks.map (fun c =>
    find_best_guess_worker possible_indices c none words words weights)
    with hresults
  have hchunk_facts : ∀ c ∈ chunks, c ≠ [] ∧ ∀ g ∈ c, g ∈ words := by
    intro c hc
    have h1 := List.mem_filter.mp hc
    refine ⟨by simpa [List.isEmpty_iff] using h1.2, ?_⟩
    intro g hg
    exact word_chunks_subset T words c g h1.1 hg
  have hcover : ∀ g ∈ words, ∃ c ∈ chunks, g ∈ c := by
    intro g hg
    obtain ⟨c, hc, hgc⟩ := word_chunks_cover T words g hTpos hg
    refine ⟨c, List.mem_filter.mpr ⟨hc, ?_⟩, hgc⟩
    simp [List.isEmpty_iff]
    rintro rfl
    cases hgc
  rcases reduce_fold_attained results (0, none) with hinit | ⟨r, hr, heq⟩
  · exfalso
    obtain ⟨g0, hg0⟩ := List.exists_mem_of_ne_nil words hw
    obtain ⟨c0, hc0, hgc0⟩ := hcover g0 hg0
    have hr0 : find_best_guess_worker possible_indices c0 none words words
        weights ∈ results := by
      rw [hresults]
      exact List.mem_map.mpr ⟨c0, hc0, rfl⟩
    obtain ⟨b0, m0, heq0, _, _, _⟩ := worker_direct_char possible_indices
      words words weights c0 hne (hchunk_facts c0 hc0).1
    have hle := reduce_fold_le_mem results (0, none) _ hr0
    rw [hinit, heq0] at hle
    simp [oLe] at hle
  · obtain ⟨c, hc, hrc⟩ := List.mem_map.mp (hresults ▸ hr)
    obtain ⟨b, m, heqw, hbmem, hds, hmin⟩ := worker_direct_char
      possible_indices words words weights c hne (hchunk_facts c hc).1
    have hr2 : r = (b, some m) := by rw [← hrc, heqw]
    rw [heq, hr2]
    simp only
    constructor
    · exact (hchunk_facts c hc).2 b hbmem
    · intro g hg
      obtain ⟨c', hc', hgc'⟩ := hcover g hg
      have hr' : find_best_guess_worker possible_indices c' none words words
          weights ∈ results := by
        rw [hresults]
        exact List.mem_map.mpr ⟨c', hc', rfl⟩
      obtain ⟨b', m', heqw', _, _, hmin'⟩ := worker_direct_char
        possible_indices words words weights c' hne (hchunk_facts c' hc').1
      have hle := reduce_fold_le_mem results (0, none) _ hr'
      rw [heq, hr2, heqw'] at hle
      simp only [oLe] at hle
      have hgle := hmin' g hgc'
      rw [← direct_score_eq_bucket, ← direct_score_eq_bucket]
      omega

/-- Witness for C5 on candidates {0}, vocabulary ["aaaaa"], one worker. -/
theorem find_best_guess_encoded_achieves_min_witness :
    find_best_guess_encoded [0] [1082401] false 0 0 none [1082401] [7] 1 ∈
        [1082401] ∧
    ∀ g ∈ [1082401],
      bucket_square_score [0] [1082401]
          (find_best_guess_encoded [0] [1082401] false 0 0 none [1082401]
            [7] 1) ≤
        bucket_square_score [0] [1082401] g :=
  find_best_guess_encoded_achieves_min [0] [1082401] [7] 1 (by decide)
    (by decide)

set_option maxRecDepth 4000 in
/-- Counterexample for C5 as stated: vocabulary ["aaaaa", "aabbb"] with
the computed weights [7, 10] and candidate set {"aaaaa"}.  Both guesses
attain the minimal score 1, the tied guess "aabbb" has the strictly
higher weight, yet the selector returns "aaaaa". -/
theorem find_best_guess_encoded_weight_counterexample :
    find_best_guess_encoded [0] [1082401, 1083458] false 0 0 none
        [1082401, 1083458] (compute_word_weights [1082401, 1083458]) 1 =
      1082401 ∧
    bucket_square_score [0] [1082401, 1083458] 1083458 =
      bucket_square_score [0] [1082401, 1083458] 1082401 ∧
    (compute_word_weights [1082401, 1083458]).getD 1 0 >
      (compute_word_weights [1082401, 1083458]).getD 0 0 ∧
    (1082401 : Nat) ≠ 1083458 :=
  ⟨by decide, by decide, by decide, by decide⟩

/-- C4 amended: the guess returned by `find_best_guess_encoded` always
achieves the minimal score, so any two chunk counts return guesses of
equal (minimal) score, and the returned guess itself is identical
whenever only one guess attains the minimum.  (With several tied
guesses the identity can depend on the chunking, because the reduction
breaks ties by chunk order and the in-worker weight tie-break is
disabled by pruning — see the counterexample.) -/
theorem find_best_guess_encoded_chunk_count
    (possible_indices words weights : List Nat) (T1 T2 : Nat)
    (hne : possible_indices ≠ []) (hw : words ≠ [])
    (huniq : ∀ g1 ∈ words, ∀ g2 ∈ words,
      (∀ h ∈ words, bucket_square_score possible_indices words g1 ≤
        bucket_square_score possible_indices words h) →
      (∀ h ∈ words, bucket_square_score possible_indices words g2 ≤
        bucket_square_score possible_indices words h) →
      g1 = g2) :
    find_best_guess_encoded possible_indices words false 0 0 none words
        weights T1 =
      find_best_guess_encoded possible_indices words false 0 0 none words
        weights T2 := by
  obtain ⟨hmem1, hmin1⟩ := find_best_guess_encoded_achieves_min
    possible_indices words weights T1 hne hw
  obtain ⟨hmem2, hmin2⟩ := find_best_guess_encoded_achieves_min
    possible_indices words weights T2 hne hw
  exact huniq _ hmem1 _ hmem2 hmin1 hmin2

/-- Witness for C4 on the one-word vocabulary with 1 and 2 workers. -/
theorem find_best_guess_encoded_chunk_count_witness :
    find_best_guess_encoded [0] [1082401] false 0 0 none [1082401] [7] 1 =
      find_best_guess_encoded [0] [1082401] false 0 0 none [1082401] [7] 2 :=
  find_best_guess_encoded_chunk_count [0] [1082401] [7] 1 2 (by decide)
    (by decide)
    (by
      intro g1 h1 g2 h2 _ _
      simp only [List.mem_singleton] at h1 h2
      rw [h1, h2])

set_option maxRecDepth 8000 in
/-- Counterexample for C4 as stated: vocabulary
["ccccc", "aabbb", "abccc", "aaaaa", "bbbbb"] with candidates
{"aaaaa", "bbbbb"}.  The guesses "aabbb" and "abccc" tie on the minimal
score 2; with one worker the reduction returns "aabbb", with two workers
it returns "abccc". -/
theorem find_best_guess_encoded_chunk_counterexample :
    find_best_guess_encoded [3, 4] [3247203, 1083458, 1117283, 1082401,
        2164802] false 0 0 none
        [3247203, 1083458, 1117283, 1082401, 2164802]
        (compute_word_weights [3247203, 1083458, 1117283, 1082401, 2164802])
        1 = 1083458 ∧
    find_best_guess_encoded [3, 4] [3247203, 1083458, 1117283, 1082401,
        2164802] false 0 0 none
        [3247203, 1083458, 1117283, 1082401, 2164802]
        (compute_word_weights [3247203, 1083458, 1117283, 1082401, 2164802])
        2 = 1117283 ∧
    (1083458 : Nat) ≠ 1117283 :=
  ⟨by decide, by decide, by decide⟩

/-! ## Decision-tree solve loops (`solver.cpp` and `solver_runtime.cpp`)

The serialized lookup tree is a byte buffer of nodes addressed by
offsets; we model a node structurally: its entry list carries
`(outcomeCode, flags, nextGuess, child)` with the child offset replaced
by the child node itself (`none` for offset 0). -/

/-- A node of the precomputed lookup tree. -/
inductive LookupNode : Type where
  | mk (entries : List (Nat × Nat × Nat × Option LookupNode)) : LookupNode

/-- The loaded tree: root node (absent when the file had no usable root)
and generation depth, as in `PrecomputedLookup`. -/
structure PrecomputedLookup where
  root : Option LookupNode := none
  depth : Nat := 0

/-- `PrecomputedLookup::find_child` of `solver.cpp`: linear scan for the
matching outcome code; a flagged entry reports depth-limited with no
guess; an unflagged match yields its guess and child.  Returns
`(next_node, guess_out, depth_limited)` with `guess_out = 0` and
`depth_limited = false` when no entry matches. -/
def find_child_entries (feedback : Nat) :
    List (Nat × Nat × Nat × Option LookupNode) →
      Option LookupNode × Nat × Bool
  | [] => (none, 0, false)
  | (fb, flags, guess, child) :: rest =>
      if fb = feedback then
        if flags ≠ 0 then (none, 0, true) else (child, guess, false)
      else find_child_entries feedback rest

def find_child (node : LookupNode) (feedback : Nat) :
    Option LookupNode × Nat × Bool :=
  match node with
  | .mk entries => find_child_entries feedback entries

/-- The outcome of a solve: the `(guess, feedback)` trace and whether the
loop returned through the "Solved in n guesses" branch. -/
structure SolveResult where
  steps : List (Nat × Nat) := []
  solved : Bool := false
deriving DecidableEq

namespace SolverCpp

/-- The guess choice of one turn when the lookup tree is not used
(`!used_lookup` block of `solver.cpp`): the fixed opener on turn 1, the
lone candidate when only one remains, otherwise the live guess selector
(which also clears the lookup node).  Returns the guess, the updated
lookup node and the updated lookup level.  (`solver.cpp` carries its own
copy of the selector that differs from `solver_core.cpp` only in lacking
the weight tie-break; the fallback structure proved here does not depend
on the selector's tie-break.) -/
def choose_fallback (words : List Nat) (hard_mode : Bool)
    (feedback_table : Option FeedbackTable) (lookups weights : List Nat)
    (num_threads : Nat) (turn guess feedback_val : Nat)
    (possible_indices : List Nat) (lookup_node : Option LookupNode)
    (lookup_level : Nat) : Nat × Option LookupNode × Nat :=
  if turn == 1 then (kInitialGuess, lookup_node, lookup_level)
  else if possible_indices.length == 1 then
    (words.getD (possible_indices.getD 0 0) 0, lookup_node, lookup_level)
  else
    (find_best_guess_encoded possible_indices words hard_mode guess
      feedback_val feedback_table lookups weights num_threads,
      none, lookup_level)

/-- The full guess choice of one turn of `solver.cpp`'s solve loop: try
the lookup tree first (`!hard_mode && precomputed && lookup_node &&
turn > 1 && lookup_level < lookup_max`); a failed or depth-limited lookup
clears the node and falls into the `!used_lookup` block. -/
def choose_guess (words : List Nat) (hard_mode : Bool)
    (feedback_table : Option FeedbackTable) (lookups weights : List Nat)
    (num_threads : Nat) (precomputed : Option PrecomputedLookup)
    (lookup_max : Nat) (turn guess feedback_val : Nat)
    (possible_indices : List Nat) (lookup_node : Option LookupNode)
    (lookup_level : Nat) : Nat × Option LookupNode × Nat :=
  match lookup_node with
  | some nd =>
      if !hard_mode && precomputed.isSome && decide (1 < turn) &&
          decide (lookup_level < lookup_max) then
        match find_child nd feedback_val with
        | (next_node, lookup_guess, depth_limited) =>
            if !depth_limited && !(lookup_guess == 0) then
              (lookup_guess, next_node, lookup_level + 1)
            else
              choose_fallback words hard_mode feedback_table lookups weights
                num_threads turn guess feedback_val possible_indices none
                lookup_level
      else
        choose_fallback words hard_mode feedback_table lookups weights
          num_threads turn guess feedback_val possible_indices (some nd)
          lookup_level
  | none =>
      choose_fallback words hard_mode feedback_table lookups weights
        num_threads turn guess feedback_val possible_indices none lookup_level

/-- Embeds the solve loop of `run_non_interactive` in `solver.cpp`
(`while (turn <= 6 && guess != answer)`), with `fuel = 7 - turn`
remaining iterations. -/
def solveLoop (answer : Nat) (words : List Nat) (hard_mode : Bool)
    (feedback_table : Option FeedbackTable) (lookups weights : List Nat)
    (num_threads : Nat) (precomputed : Option PrecomputedLookup)
    (lookup_max : Nat) :
    Nat → Nat → Nat → Nat → List Nat → Option LookupNode → Nat →
      List (Nat × Nat) → SolveResult
  | 0, _, _, _, _, _, _, steps => { steps := steps, solved := false }
  | fuel + 1, turn, guess, feedback_val, possible_indices, lookup_node,
      lookup_level, steps =>
      if guess == answer then { steps := steps, solved := false }
      else
        match choose_guess words hard_mode feedback_table lookups weights
            num_threads precomputed lookup_max turn guess feedback_val
            possible_indices lookup_node lookup_level with
        | (g2, node2, level2) =>
            if g2 == 0 then { steps := steps, solved := false }
            else
              let fb := calculate_feedback_encoded g2 answer
              let steps2 := steps ++ [(g2, fb)]
              if feedback_digits fb = [2, 2, 2, 2, 2] then
                { steps := steps2, solved := true }
              else
                solveLoop answer words hard_mode feedback_table lookups
                  weights num_threads precomputed lookup_max fuel (turn + 1)
                  g2 fb
                  (filter_candidate_indices possible_indices g2 fb
                    feedback_table lookups words)
                  node2 level2 steps2

/-- Embeds `run_non_interactive` of `solver.cpp`: all word indices are
live, the loop starts at turn 1 with no guess yet, the lookup node is the
tree root and `lookup_max = depth - 1` when a tree is supplied. -/
def run_non_interactive (answer : Nat) (words : List Nat) (hard_mode : Bool)
    (feedback_table : Option FeedbackTable) (lookups weights : List Nat)
    (num_threads : Nat) (precomputed : Option PrecomputedLookup) :
    SolveResult :=
  solveLoop answer words hard_mode feedback_table lookups weights num_threads
    precomputed
    (match precomputed with
     | some p => if 0 < p.depth then p.depth - 1 else 0
     | none => 0)
    6 1 0 0 (List.range words.length)
    (match precomputed with
     | some p => p.root
     | none => none)
    0 []

end SolverCpp

/-- Live search, stated from the spec's words (§4.6, §7): each turn's
guess comes from the guess selector against the current candidate set
(with the fixed opener on turn 1 and the lone-candidate shortcut), the
tree never being consulted. -/
def live_search_loop (answer : Nat) (words : List Nat) (hard_mode : Bool)
    (feedback_table : Option FeedbackTable) (lookups weights : List Nat)
    (num_threads : Nat) :
    Nat → Nat → Nat → Nat → List Nat → List (Nat × Nat) → SolveResult
  | 0, _, _, _, _, steps => { steps := steps, solved := false }
  | fuel + 1, turn, guess, feedback_val, possible_indices, steps =>
      if guess == answer then { steps := steps, solved := false }
      else
        let g2 := if turn == 1 then kInitialGuess
          else if possible_indices.length == 1 then
            words.getD (possible_indices.getD 0 0) 0
          else
            find_best_guess_encoded possible_indices words hard_mode guess
              feedback_val feedback_table lookups weights num_threads
        if g2 == 0 then { steps := steps, solved := false }
        else
          let fb := calculate_feedback_encoded g2 answer
          let steps2 := steps ++ [(g2, fb)]
          if feedback_digits fb = [2, 2, 2, 2, 2] then
            { steps := steps2, solved := true }
          else
            live_search_loop answer words hard_mode feedback_table lookups
              weights num_threads fuel (turn + 1) g2 fb
              (filter_candidate_indices possible_indices g2 fb feedback_table
                lookups words)
              steps2

/-- Live search over a fresh candidate set, from turn 1. -/
def live_search_solve (answer : Nat) (words : List Nat) (hard_mode : Bool)
    (feedback_table : Option FeedbackTable) (lookups weights : List Nat)
    (num_threads : Nat) : SolveResult :=
  live_search_loop answer words hard_mode feedback_table lookups weights
    num_threads 6 1 0 0 (List.range words.length) []

namespace SolverRuntime

/-- `PrecomputedLookup::find_child` of `solver_runtime.cpp`: unlike the
`solver.cpp` variant it skips the flags field without inspecting it, so a
depth-limited entry is followed like any other.  Returns
`(next_node, guess_out)`. -/
def find_child_entries (feedback : Nat) :
    List (Nat × Nat × Nat × Option LookupNode) → Option LookupNode × Nat
  | [] => (none, 0)
  | (fb, _, guess, child) :: rest =>
      if fb = feedback then (child, guess)
      else find_child_entries feedback rest

def find_child (node : LookupNode) (feedback : Nat) :
    Option LookupNode × Nat :=
  match node with
  | .mk entries => find_child_entries feedback entries

/-- The turn loop of `run_non_interactive` in `solver_runtime.cpp`:
compute feedback for the current guess, record it, stop on success, and
otherwise step through the tree — failing the solve outright when the
node is missing or the branch has no entry for the feedback. -/
def solveLoop (answer : Nat) :
    Nat → Nat → Nat → Option LookupNode → List (Nat × Nat) → SolveResult
  | 0, _, _, _, steps => { steps := steps, solved := false }
  | fuel + 1, turn, guess, node, steps =>
      let fb := calculate_feedback_encoded guess answer
      let steps2 := steps ++ [(guess, fb)]
      if fb == 242 then { steps := steps2, solved := true }
      else if turn == 6 then { steps := steps2, solved := false }
      else
        match node with
        | none => { steps := steps2, solved := false }
        | some nd =>
            match find_child nd fb with
            | (next_node, next_guess) =>
                if next_guess == 0 then { steps := steps2, solved := false }
                else solveLoop answer fuel (turn + 1) next_guess next_node
                  steps2

/-- Embeds `run_non_interactive` of `solver_runtime.cpp`: the precomputed
lookup table is required — with no tree (or no root) it prints an error
and returns immediately, performing no live search at all. -/
def run_non_interactive (answer : Nat) (_words : List Nat)
    (_hard_mode : Bool) (tree : Option PrecomputedLookup) : SolveResult :=
  match tree with
  | none => { steps := [], solved := false }
  | some t =>
      match t.root with
      | none => { steps := [], solved := false }
      | some root => solveLoop answer 6 1 kInitialGuess (some root) []

end SolverRuntime

section FallbackLemmas

variable (words : List Nat) (hard_mode : Bool)
  (feedback_table : Option FeedbackTable) (lookups weights : List Nat)
  (num_threads : Nat)

theorem choose_fallback_none (turn guess feedback_val : Nat)
    (possible_indices : List Nat) (lookup_level : Nat) :
    SolverCpp.choose_fallback words hard_mode feedback_table lookups weights
        num_threads turn guess feedback_val possible_indices none
        lookup_level =
      ((if turn == 1 then kInitialGuess
        else if possible_indices.length == 1 then
          words.getD (possible_indices.getD 0 0) 0
        else
          find_best_guess_encoded possible_indices words hard_mode guess
            feedback_val feedback_table lookups weights num_threads),
        none, lookup_level) := by
  unfold SolverCpp.choose_fallback
  split_ifs <;> rfl

theorem choose_guess_none (precomputed : Option PrecomputedLookup)
    (lookup_max turn guess feedback_val : Nat)
    (possible_indices : List Nat) (lookup_level : Nat) :
    SolverCpp.choose_guess words hard_mode feedback_table lookups weights
        num_threads precomputed lookup_max turn guess feedback_val
        possible_indices none lookup_level =
      SolverCpp.choose_fallback words hard_mode feedback_table lookups
        weights num_threads turn guess feedback_val possible_indices none
        lookup_level := rfl

theorem solveLoop_none_eq_live (answer : Nat) :
    ∀ (fuel : Nat) (precomputed : Option PrecomputedLookup)
      (lookup_max turn guess feedback_val lookup_level : Nat)
      (possible_indices : List Nat) (steps : List (Nat × Nat)),
    SolverCpp.solveLoop answer words hard_mode feedback_table lookups weights
        num_threads precomputed lookup_max fuel turn guess feedback_val
        possible_indices none lookup_level steps =
      live_search_loop answer words hard_mode feedback_table lookups weights
        num_threads fuel turn guess feedback_val possible_indices steps := by
  intro fuel
  induction fuel with
  | zero => intros; rfl
  | succ fuel ih =>
      intro precomputed lookup_max turn guess feedback_val lookup_level
        possible_indices steps
      simp only [SolverCpp.solveLoop, live_search_loop, choose_guess_none,
        choose_fallback_none]
      by_cases hga : (guess == answer) = true
      · rw [if_pos hga, if_pos hga]
      · rw [if_neg hga, if_neg hga]
        set g2e := (if turn == 1 then kInitialGuess
          else if possible_indices.length == 1 then
            words.getD (possible_indices.getD 0 0) 0
          else
            find_best_guess_encoded possible_indices words hard_mode guess
              feedback_val feedback_table lookups weights num_threads)
          with hg2e
        by_cases hg0 : (g2e == 0) = true
        · rw [if_pos hg0, if_pos hg0]
        · rw [if_neg hg0, if_neg hg0]
          by_cases hfb : feedback_digits
              (calculate_feedback_encoded g2e answer) = [2, 2, 2, 2, 2]
          · rw [if_pos hfb, if_pos hfb]
          · rw [if_neg hfb, if_neg hfb, ih]

end FallbackLemmas

/-- C6 amended, `solver.cpp` side: its `run_non_interactive` does fall
back to live search.  (a) Whenever the lookup node is gone, the rest of
the solve is exactly the live-search loop — in particular a solve with no
precomputed tree at all equals the pure live-search solve (b); and (c) on
a turn whose tree lookup yields no usable guess (no entry for the
feedback, or a depth-limited branch), the solve continues exactly as
live search from that turn on, instead of failing. -/
theorem solver_cpp_run_non_interactive_fallback (answer : Nat)
    (words : List Nat) (hard_mode : Bool)
    (feedback_table : Option FeedbackTable) (lookups weights : List Nat)
    (num_threads : Nat) :
    (∀ (precomputed : Option PrecomputedLookup)
        (lookup_max fuel turn guess feedback_val lookup_level : Nat)
        (possible_indices : List Nat) (steps : List (Nat × Nat)),
      SolverCpp.solveLoop answer words hard_mode feedback_table lookups
          weights num_threads precomputed lookup_max fuel turn guess
          feedback_val possible_indices none lookup_level steps =
        live_search_loop answer words hard_mode feedback_table lookups
          weights num_threads fuel turn guess feedback_val possible_indices
          steps) ∧
    (SolverCpp.run_non_interactive answer words hard_mode feedback_table
        lookups weights num_threads none =
      live_search_solve answer words hard_mode feedback_table lookups weights
        num_threads) ∧
    (∀ (precomputed : Option PrecomputedLookup)
        (lookup_max fuel turn guess feedback_val lookup_level : Nat)
        (possible_indices : List Nat) (steps : List (Nat × Nat))
        (nd : LookupNode),
      hard_mode = false → precomputed.isSome = true → 1 < turn →
      lookup_level < lookup_max →
      ((find_child nd feedback_val).2.2 = true ∨
        (find_child nd feedback_val).2.1 = 0) →
      SolverCpp.solveLoop answer words hard_mode feedback_table lookups
          weights num_threads precomputed lookup_max (fuel + 1) turn guess
          feedback_val possible_indices (some nd) lookup_level steps =
        live_search_loop answer words hard_mode feedback_table lookups
          weights num_threads (fuel + 1) turn guess feedback_val
          possible_indices steps) := by
  refine ⟨?_, ?_, ?_⟩
  · intro precomputed lookup_max fuel turn guess feedback_val lookup_level
      possible_indices steps
    exact solveLoop_none_eq_live words hard_mode feedback_table lookups
      weights num_threads answer fuel precomputed lookup_max turn guess
      feedback_val lookup_level possible_indices steps
  · unfold SolverCpp.run_non_interactive live_search_solve
    exact solveLoop_none_eq_live words hard_mode feedback_table lookups
      weights num_threads answer 6 none 0 1 0 0 0 (List.range words.length) []
  · intro precomputed lookup_max fuel turn guess feedback_val lookup_level
      possible_indices steps nd hhard hsome hturn hlvl hfail
    have hcond : (!hard_mode && precomputed.isSome && decide (1 < turn) &&
        decide (lookup_level < lookup_max)) = true := by
      simp [hhard, hsome, hturn, hlvl]
    have hchoose : SolverCpp.choose_guess words hard_mode feedback_table
        lookups weights num_threads precomputed lookup_max turn guess
        feedback_val possible_indices (some nd) lookup_level =
        SolverCpp.choose_fallback words hard_mode feedback_table lookups
          weights num_threads turn guess feedback_val possible_indices none
          lookup_level := by
      simp only [SolverCpp.choose_guess]
      rw [if_pos hcond]
      rcases hfc : find_child nd feedback_val with ⟨next_node, lookup_guess,
        depth_limited⟩
      rw [hfc] at hfail
      have hcond2 : (!depth_limited && !(lookup_guess == 0)) = false := by
        rcases hfail with h | h
        · simp at h
          simp [h]
        · simp at h
          simp [h]
      rw [hcond2]
      simp
    simp only [SolverCpp.solveLoop, live_search_loop, hchoose,
      choose_fallback_none]
    by_cases hga : (guess == answer) = true
    · rw [if_pos hga, if_pos hga]
    · rw [if_neg hga, if_neg hga]
      set g2e := (if turn == 1 then kInitialGuess
        else if possible_indices.length == 1 then
          words.getD (possible_indices.getD 0 0) 0
        else
          find_best_guess_encoded possible_indices words hard_mode guess
            feedback_val feedback_table lookups weights num_threads)
        with hg2e
      by_cases hg0 : (g2e == 0) = true
      · rw [if_pos hg0, if_pos hg0]
      · rw [if_neg hg0, if_neg hg0]
        by_cases hfb : feedback_digits
            (calculate_feedback_encoded g2e answer) = [2, 2, 2, 2, 2]
        · rw [if_pos hfb, if_pos hfb]
        · rw [if_neg hfb, if_neg hfb, solveLoop_none_eq_live]

/-- Counterexample for C6 as stated: the modular runtime
(`solver_runtime.cpp`) does not fall back.  With no precomputed tree it
aborts at once — empty trace, not solved — for the very answer "roate"
(packed 19367557) that both `solver.cpp`'s loop (with no tree) and pure
live search solve on the first turn. -/
theorem solver_runtime_no_fallback_counterexample :
    SolverRuntime.run_non_interactive 19367557 [19367557] false none =
      { steps := [], solved := false } ∧
    (SolverCpp.run_non_interactive 19367557 [19367557] false none [19367557]
      [5] 1 none).solved = true ∧
    (live_search_solve 19367557 [19367557] false none [19367557] [5]
      1).solved = true :=
  ⟨rfl, by decide, by decide⟩
